import Mathlib

/-!
# cbook: fraction arithmetic (`code/addfrac.c`), the heap block of fractions
(`code/fracheap.c`) and the escaping of HTML text (`code/escapehtml.c`)

A shallow embedding of the C functions and the properties proved about them.

Conventions of the embedding:

* a C `int` is a mathematical integer (`Int`); `gcd`, `lcm` and `add_fractions` describe
  the runs in which no intermediate result leaves the range of `int`;
* `gcd32` and `lcm32` describe every run on a 32-bit two's complement `int`: their
  arguments are the integers `INT_MIN .. INT_MAX`, a product and `abs` wrap modulo `2^32`,
  and `INT_MIN % -1` and `INT_MIN / -1` stop the program;
* C `/` and `%` truncate toward zero: they are `Int.tdiv` and `Int.tmod`;
* a division whose divisor is zero does not produce a value: it is the fault
  `Fault.divByZero`;
* a block of records reached through a pointer is a `List`; reading or writing outside
  the block does not produce a value (`none`);
* the input of a program is the list of the integers that `atoi` finds in the lines read
  by the successive calls of `fgets`, and its output is the text written;
* a block of `char` is a list of cells, `none` for a byte that has not been written.
-/

/-! ## Definitions: `code/addfrac.c` -/

namespace Addfrac

/-- The ways in which the arithmetic of `addfrac.c` can fail to produce a value:
a division or remainder by zero, and the division or remainder of the least `int` by
`-1`, whose quotient is not an `int`. Either one stops the program. -/
inductive Fault where
  | divByZero
  | overflow
  deriving DecidableEq, Repr

/-- The record `struct fraction` of `addfrac.c`. -/
structure fraction_t where
  numerator : Int
  denominator : Int
  deriving DecidableEq, Repr

/-- The recursion of `gcd`, unrolled at most `depth` calls deep:
`if (b == 0) return a; else return gcd(b, a % b);`.
`gcd` below starts it with `depth = |b|`; the absolute value of the second argument drops
by at least one per call, so the second argument is `0` when `depth` reaches `0`, and the
value returned there is the first argument, as in the source (`gcd_unfold`). -/
def gcdAux : Nat → Int → Int → Int
  | 0, a, _ => a
  | depth + 1, a, b => if b = 0 then a else gcdAux depth b (a.tmod b)

/-- The function `int gcd(int a, int b)` over the mathematical integers: what the source
computes when no remainder is `INT_MIN % -1` (`gcd32_in_int`). -/
def gcd (a b : Int) : Int :=
  gcdAux b.natAbs a b

/-- C `abs` on `int`. -/
def cabs (x : Int) : Int :=
  if x < 0 then -x else x

/-- C `/` on `int`: truncating division, a fault when the divisor is zero. -/
def cdiv (a b : Int) : Except Fault Int :=
  if b = 0 then .error .divByZero else .ok (a.tdiv b)

/-- The function `int lcm(int a, int b)` over the mathematical integers:
`return abs(a * b) / gcd(a, b);`, what the source computes when the product and its
absolute value are within the range of `int` (`lcm32_eq_lcm`). -/
def lcm (a b : Int) : Except Fault Int :=
  cdiv (cabs (a * b)) (gcd a b)

/-- The function `fraction_t add_fractions(fraction_t f1, fraction_t f2)`. -/
def add_fractions (f1 f2 : fraction_t) : Except Fault fraction_t :=
  match lcm f1.denominator f2.denominator with
  | .error e => .error e
  | .ok denom =>
    match cdiv denom f1.denominator with
    | .error e => .error e
    | .ok q1 =>
      match cdiv denom f2.denominator with
      | .error e => .error e
      | .ok q2 =>
        let numer := q1 * f1.numerator + q2 * f2.numerator
        .ok { numerator := numer, denominator := denom }

/-- The least value of `int`, a 32-bit two's complement integer. -/
def INT_MIN : Int := -2147483648

/-- The greatest value of `int`. -/
def INT_MAX : Int := 2147483647

/-- The integers that are values of `int`. -/
abbrev in_int (x : Int) : Prop :=
  INT_MIN ≤ x ∧ x ≤ INT_MAX

/-- The 32-bit two's complement `int` that a mathematical integer wraps to: its residue
modulo `2^32` in the range `-2^31 .. 2^31 - 1`. -/
def wrap32 (x : Int) : Int :=
  (x + 2 ^ 31) % 2 ^ 32 - 2 ^ 31

/-- C `%` on the 32-bit `int`: the truncating remainder; a fault when the divisor is
zero and when `INT_MIN % -1` is taken. -/
def cmod32 (a b : Int) : Except Fault Int :=
  if b = 0 then .error .divByZero
  else if a = INT_MIN ∧ b = -1 then .error .overflow
  else .ok (a.tmod b)

/-- C `/` on the 32-bit `int`: the truncating quotient; a fault when the divisor is
zero and when `INT_MIN / -1` is taken. -/
def cdiv32 (a b : Int) : Except Fault Int :=
  if b = 0 then .error .divByZero
  else if a = INT_MIN ∧ b = -1 then .error .overflow
  else .ok (a.tdiv b)

/-- The recursion of `gcd` on the 32-bit `int`, unrolled at most `depth` calls deep:
`if (b == 0) return a; else return gcd(b, a % b);`, stopped by a fault of `a % b`.
As for `gcdAux`, the second argument is `0` when a `depth` started at `|b|` reaches
`0`. -/
def gcd32Aux : Nat → Int → Int → Except Fault Int
  | 0, a, _ => .ok a
  | depth + 1, a, b =>
    if b = 0 then .ok a
    else
      match cmod32 a b with
      | .error e => .error e
      | .ok r => gcd32Aux depth b r

/-- The function `int gcd(int a, int b)` on the 32-bit `int`. -/
def gcd32 (a b : Int) : Except Fault Int :=
  gcd32Aux b.natAbs a b

/-- The function `int lcm(int a, int b)` on the 32-bit `int`:
`return abs(a * b) / gcd(a, b);`. The product wraps modulo `2^32`, `abs` of `INT_MIN`
wraps to `INT_MIN`, and the call of `gcd` and the final division can be stopped by a
fault. -/
def lcm32 (a b : Int) : Except Fault Int :=
  match gcd32 a b with
  | .error e => .error e
  | .ok g => cdiv32 (wrap32 (cabs (wrap32 (a * b)))) g

/-- The function `gcd` on the 32-bit `int` with a budget of `calls` nested calls: `none`
when the budget is used up before the recursion returns or is stopped by a fault. -/
def gcd32Fuel : Nat → Int → Int → Option (Except Fault Int)
  | 0, _, _ => none
  | calls + 1, a, b =>
    if b = 0 then some (.ok a)
    else
      match cmod32 a b with
      | .error e => some (.error e)
      | .ok r => gcd32Fuel calls b r

/-- The arguments of the `n`-th nested call that `gcd(a, b)` makes, `gcd(a, b)` itself
being the call number `0`; `none` when the recursion returns or is stopped before it
makes that call. -/
def gcd32Call : Nat → Int → Int → Option (Int × Int)
  | 0, a, b => some (a, b)
  | n + 1, a, b =>
    if b = 0 then none
    else
      match cmod32 a b with
      | .error _ => none
      | .ok r => gcd32Call n b r

end Addfrac

/-! ## Definitions: `code/fracheap.c` -/

namespace Fracheap

/-- The record `struct fraction` of `fracheap.c`. -/
structure fraction where
  numerator : Int
  denominator : Int
  deriving DecidableEq, Repr

/-- The body of the loop of `invert_fractions`, with the pointer `fracblock` at offset `p`
of the block `mem`:
`int tmp = fracblock->numerator; fracblock->numerator = fracblock->denominator;
fracblock->denominator = tmp;`.
There is no value when the pointer is outside the block. -/
def invert_body (mem : List fraction) (p : Nat) : Option (List fraction) :=
  match mem[p]? with
  | none => none
  | some f =>
    let tmp := f.numerator
    some (mem.set p { numerator := f.denominator, denominator := tmp })

/-- The loop of `invert_fractions` with `remaining` passes to go and the pointer at
offset `p`: each pass runs the body and then `fracblock += 1`. -/
def invert_loop : Nat → Nat → List fraction → Option (List fraction)
  | 0, _, mem => some mem
  | remaining + 1, p, mem =>
    match invert_body mem p with
    | none => none
    | some mem1 => invert_loop remaining (p + 1) mem1

/-- The function `void invert_fractions(struct fraction *fracblock, int numfrac)`, as a
function from the block before the call to the block after it.
`for (int i = 0; i < numfrac; i++)` makes `numfrac` passes, none when `numfrac ≤ 0`. -/
def invert_fractions (fracblock : List fraction) (numfrac : Int) : Option (List fraction) :=
  invert_loop numfrac.toNat 0 fracblock

/-- What `printf("%d: %d/%d\n", i+1, f.numerator, f.denominator)` writes, without the
final newline. -/
def line_text (i : Nat) (f : fraction) : String :=
  toString (i + 1) ++ ": " ++ toString f.numerator ++ "/" ++ toString f.denominator

/-- The loop of `print_fractions` with `remaining` passes to go, at index `i`, after `out`
has been written to the standard output: the pass reads `(fracblock+i)->numerator` and
`(fracblock+i)->denominator` and writes one line. -/
def print_loop (fracblock : List fraction) : Nat → Nat → String → Option String
  | 0, _, out => some out
  | remaining + 1, i, out =>
    match fracblock[i]? with
    | none => none
    | some f => print_loop fracblock remaining (i + 1) (out ++ (line_text i f ++ "\n"))

/-- The function `void print_fractions(struct fraction *fracblock, int numfrac)`, as the
text it writes to the standard output. -/
def print_fractions (fracblock : List fraction) (numfrac : Int) : Option String :=
  print_loop fracblock numfrac.toNat 0 ""

/-- The record with numerator and denominator exchanged. -/
def swapped (f : fraction) : fraction :=
  { numerator := f.denominator, denominator := f.numerator }

/-- The console of the program. `stdin` holds, for each line still to be read, the integer
that `atoi` finds in it; `stdout` is the text written so far. -/
structure Console where
  stdin : List Int
  stdout : String
  deriving DecidableEq, Repr

/-- The call `fgets(buffer, 32, stdin)`: the content of `buffer` afterwards, as the integer
that `atoi(buffer)` returns (`none` for a buffer that was never filled), and the input
left. At the end of the input `fgets` leaves the buffer as it was. -/
def fgets (buffer : Option Int) (stdin : List Int) : Option Int × List Int :=
  match stdin with
  | [] => (buffer, [])
  | x :: rest => (some x, rest)

/-- The loop of `get_fractions` with `remaining` passes to go, at index `i`: each pass
writes the two prompts, reads the numerator and the denominator with `fgets` and `atoi`,
and stores them in `fracblock[i]`. There is no value when `atoi` is given a buffer that was
never filled or when `fracblock[i]` is outside the block. -/
def get_loop : Nat → Nat → Option Int → List fraction → Console →
    Option (List fraction × Console)
  | 0, _, _, mem, io => some (mem, io)
  | remaining + 1, i, buffer, mem, io =>
    let out1 := io.stdout ++ ("Enter numerator for fraction " ++ toString (i + 1) ++ ": ")
    match fgets buffer io.stdin with
    | (none, _) => none
    | (some numerator, in1) =>
      let out2 := out1 ++ ("Enter denominator for fraction " ++ toString (i + 1) ++ ": ")
      match fgets (some numerator) in1 with
      | (none, _) => none
      | (some denominator, in2) =>
        if i < mem.length then
          get_loop remaining (i + 1) (some denominator)
            (mem.set i { numerator := numerator, denominator := denominator })
            { stdin := in2, stdout := out2 }
        else none

/-- The function `void get_fractions(struct fraction *fracblock, int numfrac)`: the block
and the console after the call. Its `buffer` is a local array that is not filled at the
start. -/
def get_fractions (fracblock : List fraction) (numfrac : Int) (io : Console) :
    Option (List fraction × Console) :=
  get_loop numfrac.toNat 0 none fracblock io

/-- The input on which the successive reads find the numerator and the denominator of
each pair, in the order of the pairs. -/
def source_of : List (Int × Int) → List Int
  | [] => []
  | p :: ps => p.1 :: p.2 :: source_of ps

/-- The heap block of the program: the records reached through the pointer `fractions`
and the mark `live`, set when `malloc` returns the block and cleared by `free`.
C defines the calls of `fracheap.c` on a block only while the block is live. -/
structure Heap where
  block : List fraction
  live : Bool
  deriving DecidableEq, Repr

/-- The call `malloc(sizeof(struct fraction) * numfrac)`. The allocator `alloc` gives, for
the count in the request, the records reachable through the pointer returned, with their
contents at that time; it gives no record for a null pointer. -/
def malloc (alloc : Int → List fraction) (numfrac : Int) : Heap :=
  { block := alloc numfrac, live := true }

/-- The call `free(fractions)`: the storage goes back to the allocator and the mark is
cleared. The field `block` of a released block is what the storage held when it was
released; nothing is defined on it afterwards. -/
def free (h : Heap) : Heap :=
  { h with live := false }

/-- The call `get_fractions(fractions, numfrac)` on the heap block. There is no value on
a released block: C leaves such a call undefined. -/
def get_fractions_at (h : Heap) (numfrac : Int) (io : Console) : Option (Heap × Console) :=
  if h.live then
    match get_fractions h.block numfrac io with
    | none => none
    | some (block1, io1) => some ({ h with block := block1 }, io1)
  else none

/-- The call `invert_fractions(fractions, numfrac)` on the heap block. There is no value
on a released block: C leaves such a call undefined. -/
def invert_fractions_at (h : Heap) (numfrac : Int) : Option Heap :=
  if h.live then
    match invert_fractions h.block numfrac with
    | none => none
    | some block1 => some { h with block := block1 }
  else none

/-- The call `print_fractions(fractions, numfrac)` on the heap block: the text written.
There is no value on a released block: C leaves such a call undefined. -/
def print_fractions_at (h : Heap) (numfrac : Int) : Option String :=
  if h.live then print_fractions h.block numfrac else none

/-- The calls that `main` makes on the block. -/
inductive Call where
  | malloc (numfrac : Int)
  | get_fractions (numfrac : Int)
  | invert_fractions (numfrac : Int)
  | print_fractions (numfrac : Int)
  | free
  deriving DecidableEq, Repr

/-- A run of `main` that reaches `return 0`: the calls made on the block, in order, the
heap block and the console at the end, and the value returned. -/
structure Run where
  calls : List Call
  heap : Heap
  console : Console
  status : Int
  deriving DecidableEq, Repr

/-- The function `main` of `fracheap.c`, run on the input `stdin` with the allocator
`alloc`: it writes the prompt, reads the count with `fgets` and `atoi`, requests the
block, calls `get_fractions`, `invert_fractions` and `print_fractions` on it, releases it
and returns `0`. -/
def main (stdin : List Int) (alloc : Int → List fraction) : Option Run :=
  let out := "How many fractions to make? "
  match fgets none stdin with
  | (none, _) => none
  | (some numfrac, rest) =>
    let fractions := malloc alloc numfrac
    match get_fractions_at fractions numfrac { stdin := rest, stdout := out } with
    | none => none
    | some (heap1, io1) =>
      match invert_fractions_at heap1 numfrac with
      | none => none
      | some heap2 =>
        match print_fractions_at heap2 numfrac with
        | none => none
        | some text =>
          some { calls := [.malloc numfrac, .get_fractions numfrac,
                   .invert_fractions numfrac, .print_fractions numfrac, .free],
                 heap := free heap2,
                 console := { stdin := io1.stdin, stdout := io1.stdout ++ text },
                 status := 0 }

end Fracheap

/-! ## Definitions: `code/escapehtml.c` -/

namespace Escapehtml

/-- The character that ends a C string. -/
def NUL : Char := Char.ofNat 0

/-- A block of `char` returned by `malloc`, one cell per byte: `none` for a byte that has
not been written, `some c` for a byte that holds `c`. -/
abbrev Buffer := List (Option Char)

/-- The function `int count_escapees(const char *htmltext)`. The string `htmltext` is given
by its characters before the terminating `NUL`; the loop visits them in order, from
index `0` to `strlen(htmltext) - 1`. -/
def count_escapees (htmltext : List Char) : Nat :=
  htmltext.foldl (fun count c => if c = '<' ∨ c = '>' then count + 1 else count) 0

/-- The assignment `expandedtext[k] = c`; no value when `k` is outside the block. -/
def store (buf : Buffer) (k : Nat) (c : Char) : Option Buffer :=
  if k < buf.length then some (buf.set k (some c)) else none

/-- The stores of the characters `cs` at the indices `k, k + 1, ...`. -/
def store_all : Buffer → Nat → List Char → Option Buffer
  | buf, _, [] => some buf
  | buf, k, c :: cs =>
    match store buf k c with
    | none => none
    | some buf1 => store_all buf1 (k + 1) cs

/-- The call `strcpy(&expandedtext[k], src)`: it copies the characters of `src` and the
terminating `NUL`. -/
def strcpy (buf : Buffer) (k : Nat) (src : List Char) : Option Buffer :=
  store_all buf k (src ++ [NUL])

/-- The loop of `doescape` on the characters `htmltext[i], htmltext[i+1], ...` still to
visit, with the output index at `j`. -/
def doescape_loop : List Char → Nat → Buffer → Option Buffer
  | [], _, buf => some buf
  | c :: rest, j, buf =>
    if c = '<' then
      match strcpy buf j "&lt;".toList with
      | none => none
      | some buf1 => doescape_loop rest (j + 4) buf1
    else if c = '>' then
      match strcpy buf j "&gt;".toList with
      | none => none
      | some buf1 => doescape_loop rest (j + 4) buf1
    else
      match store buf j c with
      | none => none
      | some buf1 => doescape_loop rest (j + 1) buf1

/-- The function `void doescape(const char *htmltext, char *expandedtext)`: the block
`expandedtext` after the call; no value when a store falls outside the block. -/
def doescape (htmltext : List Char) (expandedtext : Buffer) : Option Buffer :=
  doescape_loop htmltext 0 expandedtext

/-- The function `char *escapehtml(const char *htmltext)`: the block it returns, of
`strlen(htmltext) + count * 4 + 1` bytes, none of them written before `doescape` runs. -/
def escapehtml (htmltext : List Char) : Option Buffer :=
  let count := count_escapees htmltext
  let origlen := htmltext.length
  let expandedlen := origlen + count * 4 + 1
  let expandedtext : Buffer := List.replicate expandedlen none
  doescape htmltext expandedtext

/-- The escaped form of one character: `&lt;` for `<`, `&gt;` for `>`, the character
itself otherwise. -/
def escape_char (c : Char) : List Char :=
  if c = '<' then "&lt;".toList else if c = '>' then "&gt;".toList else [c]

/-- The escaped form of a string: the concatenation of the escaped forms of its
characters. -/
def escaped : List Char → List Char
  | [] => []
  | c :: rest => escape_char c ++ escaped rest

/-- The cell right after the output written so far: it holds the `NUL` copied by `strcpy`
when the last character visited is `<` or `>`, it is not written when the last character
visited is another one, and it is `start` when no character has been visited. -/
def end_cell (start : Option Char) : List Char → Option Char
  | [] => start
  | c :: rest => end_cell (if c = '<' ∨ c = '>' then some NUL else none) rest

end Escapehtml

/-! ## Theorems: `code/addfrac.c` -/

namespace Addfrac

theorem natAbs_tmod (a b : Int) : (a.tmod b).natAbs = a.natAbs % b.natAbs := by
  cases a <;> cases b <;> simp [Int.tmod] <;> rfl

theorem natAbs_tmod_lt (a : Int) {b : Int} (hb : b ≠ 0) :
    (a.tmod b).natAbs < b.natAbs := by
  rw [natAbs_tmod]
  exact Nat.mod_lt _ (Int.natAbs_pos.mpr hb)

/-- Any two recursion depths of at least `|b|` give the same result. -/
theorem gcdAux_depth : ∀ (d1 d2 : Nat) (a b : Int), b.natAbs ≤ d1 → b.natAbs ≤ d2 →
    gcdAux d1 a b = gcdAux d2 a b := by
  intro d1
  induction d1 with
  | zero =>
    intro d2 a b h1 _
    have hb : b = 0 := Int.natAbs_eq_zero.mp (Nat.le_zero.mp h1)
    subst hb
    cases d2 <;> simp [gcdAux]
  | succ n ih =>
    intro d2 a b h1 h2
    by_cases hb : b = 0
    · subst hb
      cases d2 <;> simp [gcdAux]
    · have hlt := natAbs_tmod_lt a hb
      cases d2 with
      | zero => exact absurd (Int.natAbs_eq_zero.mp (Nat.le_zero.mp h2)) hb
      | succ m =>
        simp only [gcdAux, hb, if_false]
        exact ih m b (a.tmod b) (by omega) (by omega)

theorem gcdAux_eq_gcd (depth : Nat) (a b : Int) (h : b.natAbs ≤ depth) :
    gcdAux depth a b = gcd a b :=
  gcdAux_depth depth b.natAbs a b h (Nat.le_refl _)

/-- The defining equation of the source:
`gcd(a, b)` is `a` when `b == 0` and `gcd(b, a % b)` otherwise. -/
theorem gcd_unfold (a b : Int) :
    gcd a b = if b = 0 then a else gcd b (a.tmod b) := by
  by_cases hb : b = 0
  · subst hb
    simp [gcd, gcdAux]
  · have hlt := natAbs_tmod_lt a hb
    obtain ⟨m, hm⟩ : ∃ m, b.natAbs = m + 1 :=
      Nat.exists_eq_succ_of_ne_zero (fun h0 => hb (Int.natAbs_eq_zero.mp h0))
    have e2 : gcd a b = gcdAux m b (a.tmod b) := by
      simp [gcd, hm, gcdAux, hb]
    rw [e2, gcdAux_eq_gcd m b (a.tmod b) (by omega)]
    simp [hb]

theorem gcd_zero_right (a : Int) : gcd a 0 = a := by
  rw [gcd_unfold]
  simp

theorem gcd_of_ne_zero (a : Int) {b : Int} (hb : b ≠ 0) :
    gcd a b = gcd b (a.tmod b) := by
  rw [gcd_unfold]
  simp [hb]

/-- The absolute value of `gcd a b` is the greatest common divisor of `|a|` and `|b|`. -/
theorem natAbs_gcd (a b : Int) : (gcd a b).natAbs = Nat.gcd a.natAbs b.natAbs := by
  generalize hn : b.natAbs = n
  induction n using Nat.strong_induction_on generalizing a b with
  | _ n ih =>
    by_cases hb : b = 0
    · subst hb
      subst hn
      simp [gcd_zero_right]
    · rw [gcd_of_ne_zero a hb]
      have hlt := natAbs_tmod_lt a hb
      rw [ih (a.tmod b).natAbs (by omega) b (a.tmod b) rfl, natAbs_tmod, ← hn,
        Nat.gcd_comm a.natAbs, Nat.gcd_rec b.natAbs a.natAbs, Nat.gcd_comm]

theorem gcd_eq_zero_iff (a b : Int) : gcd a b = 0 ↔ a = 0 ∧ b = 0 := by
  rw [← Int.natAbs_eq_zero, natAbs_gcd, Nat.gcd_eq_zero_iff, Int.natAbs_eq_zero,
    Int.natAbs_eq_zero]

theorem gcd_dvd_left (a b : Int) : gcd a b ∣ a := by
  rw [← Int.natAbs_dvd_natAbs, natAbs_gcd]
  exact Nat.gcd_dvd_left _ _

theorem gcd_dvd_right (a b : Int) : gcd a b ∣ b := by
  rw [← Int.natAbs_dvd_natAbs, natAbs_gcd]
  exact Nat.gcd_dvd_right _ _

theorem cabs_eq_abs (x : Int) : cabs x = |x| := by
  unfold cabs
  split_ifs with h
  · exact (abs_of_neg h).symm
  · exact (abs_of_nonneg (not_lt.mp h)).symm

theorem cdiv_of_ne_zero (a : Int) {b : Int} (hb : b ≠ 0) : cdiv a b = .ok (a.tdiv b) := by
  simp [cdiv, hb]

theorem cdiv_zero (a : Int) : cdiv a 0 = .error .divByZero := by
  simp [cdiv]

/-- When the divisor is not zero and divides exactly, `cdiv` returns the cofactor. -/
theorem cdiv_mul_left (c : Int) {b : Int} (hb : b ≠ 0) : cdiv (b * c) b = .ok c := by
  rw [cdiv_of_ne_zero _ hb, Int.tdiv_eq_of_eq_mul_right hb rfl]

/-- The value of `lcm a b` when `g = gcd a b` is not zero: with `a = g * u`, `b = g * v`
and `abs (a * b) = a * b * s` (`s` is `1` or `-1`), it is `g * u * v * s`. -/
theorem lcm_shape (a b : Int) (hg : gcd a b ≠ 0) :
    ∃ u v s : Int, a = gcd a b * u ∧ b = gcd a b * v ∧ (s = 1 ∨ s = -1) ∧
      cabs (a * b) = a * b * s ∧ lcm a b = .ok (gcd a b * u * v * s) := by
  obtain ⟨u, hu⟩ := gcd_dvd_left a b
  obtain ⟨v, hv⟩ := gcd_dvd_right a b
  obtain ⟨s, hs, habs⟩ : ∃ s : Int, (s = 1 ∨ s = -1) ∧ cabs (a * b) = a * b * s := by
    unfold cabs
    split_ifs with h
    · exact ⟨-1, Or.inr rfl, by ring⟩
    · exact ⟨1, Or.inl rfl, by ring⟩
  refine ⟨u, v, s, hu, hv, hs, habs, ?_⟩
  unfold lcm
  rw [habs]
  generalize gcd a b = g at hu hv hg ⊢
  have e : a * b * s = g * (g * u * v * s) := by
    rw [hu, hv]
    ring
  rw [e]
  exact cdiv_mul_left _ hg

/-- The result of `add_fractions` on nonzero denominators `d1 = g * u`, `d2 = g * v`
(`g = gcd d1 d2`, `s` the sign of `d1 * d2`): the denominator is `g * u * v * s` and the
numerator is `(v * s) * n1 + (u * s) * n2`. -/
theorem add_fractions_shape (f1 f2 : fraction_t)
    (h1 : f1.denominator ≠ 0) (h2 : f2.denominator ≠ 0) :
    ∃ u v s : Int, f1.denominator = gcd f1.denominator f2.denominator * u ∧
      f2.denominator = gcd f1.denominator f2.denominator * v ∧ (s = 1 ∨ s = -1) ∧
      cabs (f1.denominator * f2.denominator) = f1.denominator * f2.denominator * s ∧
      add_fractions f1 f2 =
        .ok { numerator := v * s * f1.numerator + u * s * f2.numerator,
              denominator := gcd f1.denominator f2.denominator * u * v * s } := by
  have hg : gcd f1.denominator f2.denominator ≠ 0 := by
    intro h0
    exact h1 ((gcd_eq_zero_iff _ _).mp h0).1
  obtain ⟨u, v, s, hu, hv, hs, habs, hl⟩ := lcm_shape f1.denominator f2.denominator hg
  refine ⟨u, v, s, hu, hv, hs, habs, ?_⟩
  unfold add_fractions
  rw [hl]
  generalize gcd f1.denominator f2.denominator = g at hu hv hg ⊢
  have hu0 : g * u ≠ 0 := by rw [← hu]; exact h1
  have hv0 : g * v ≠ 0 := by rw [← hv]; exact h2
  have e1 : cdiv (g * u * v * s) f1.denominator = .ok (v * s) := by
    rw [hu, show g * u * v * s = g * u * (v * s) by ring]
    exact cdiv_mul_left _ hu0
  have e2 : cdiv (g * u * v * s) f2.denominator = .ok (u * s) := by
    rw [hv, show g * u * v * s = g * v * (u * s) by ring]
    exact cdiv_mul_left _ hv0
  simp only [e1, e2]

/-- C1. For all integers `n1 d1 n2 d2` with `d1 ≠ 0` and `d2 ≠ 0`, `add_fractions`
returns a record `(N, D)` with `D ≠ 0` whose value `N / D` is the rational number
`n1 / d1 + n2 / d2`; the denominators may be negative. -/
theorem add_fractions_sum (n1 d1 n2 d2 : Int) (h1 : d1 ≠ 0) (h2 : d2 ≠ 0) :
    ∃ N D : Int,
      add_fractions { numerator := n1, denominator := d1 }
          { numerator := n2, denominator := d2 }
        = .ok { numerator := N, denominator := D } ∧
      D ≠ 0 ∧ (N : ℚ) / (D : ℚ) = (n1 : ℚ) / (d1 : ℚ) + (n2 : ℚ) / (d2 : ℚ) := by
  obtain ⟨u, v, s, hu, hv, hs, -, hr⟩ :=
    add_fractions_shape { numerator := n1, denominator := d1 }
      { numerator := n2, denominator := d2 } h1 h2
  simp only at hu hv hr
  generalize gcd d1 d2 = g at hu hv hr
  have hs0 : s ≠ 0 := by rcases hs with h | h <;> rw [h] <;> decide
  have hg0 : g ≠ 0 := by rintro rfl; simp at hu; exact h1 hu
  have hu0 : u ≠ 0 := by rintro rfl; simp at hu; exact h1 hu
  have hv0 : v ≠ 0 := by rintro rfl; simp at hv; exact h2 hv
  have hD : g * u * v * s ≠ 0 := by
    simp only [ne_eq, mul_eq_zero, not_or]
    exact ⟨⟨⟨hg0, hu0⟩, hv0⟩, hs0⟩
  refine ⟨v * s * n1 + u * s * n2, g * u * v * s, hr, hD, ?_⟩
  have hgq : (g : ℚ) ≠ 0 := by exact_mod_cast hg0
  have huq : (u : ℚ) ≠ 0 := by exact_mod_cast hu0
  have hvq : (v : ℚ) ≠ 0 := by exact_mod_cast hv0
  have hsq : (s : ℚ) ≠ 0 := by exact_mod_cast hs0
  rw [hu, hv]
  push_cast
  field_simp
  ring

theorem add_fractions_sum_witness :
    (-2 : Int) ≠ 0 ∧ (4 : Int) ≠ 0 ∧ ∃ N D : Int,
      add_fractions { numerator := 1, denominator := -2 }
          { numerator := 3, denominator := 4 }
        = .ok { numerator := N, denominator := D } ∧
      D ≠ 0 ∧ (N : ℚ) / (D : ℚ) = ((1 : Int) : ℚ) / ((-2 : Int) : ℚ)
        + ((3 : Int) : ℚ) / ((4 : Int) : ℚ) :=
  ⟨by decide, by decide, add_fractions_sum 1 (-2) 3 4 (by decide) (by decide)⟩

/-- The sign of `gcd` follows the truncating remainder. -/
theorem gcd_sign_examples :
    gcd 2 5 = 1 ∧ gcd (-4) 6 = 2 ∧ gcd 4 (-6) = -2 ∧ gcd (-4) (-6) = -2 ∧ gcd 0 (-3) = -3 := by
  decide

/-- C2. `add_fractions((1,2),(3,5))` returns exactly `(11,10)`: the denominator is
`lcm(2,5) = 10`, the scale factors are `10/2 = 5` and `10/5 = 2`, the numerator is
`5*1 + 2*3 = 11`, and nothing is reduced. -/
theorem add_fractions_half_three_fifths :
    add_fractions { numerator := 1, denominator := 2 } { numerator := 3, denominator := 5 }
        = .ok { numerator := 11, denominator := 10 } ∧
      lcm 2 5 = .ok 10 ∧ cdiv 10 2 = .ok 5 ∧ cdiv 10 5 = .ok 2 ∧
      (5 * 1 + 2 * 3 : Int) = 11 :=
  ⟨rfl, rfl, rfl, rfl, rfl⟩

theorem gcd_self (d : Int) : gcd d d = d := by
  by_cases hd : d = 0
  · subst hd
    rfl
  · rw [gcd_of_ne_zero d hd, Int.tmod_self, gcd_zero_right]

theorem lcm_self {d : Int} (hd : d ≠ 0) : lcm d d = .ok d := by
  unfold lcm
  rw [gcd_self, cabs_eq_abs, abs_mul_self]
  exact cdiv_mul_left d hd

/-- C3. For every fraction `f = (n, d)` with `d ≠ 0`, `add_fractions(f, f)` returns
`(2n, d)`: the denominator is `d` itself, sign included, and the numerator is doubled. -/
theorem add_fractions_self (n d : Int) (hd : d ≠ 0) :
    add_fractions { numerator := n, denominator := d } { numerator := n, denominator := d }
      = .ok { numerator := 2 * n, denominator := d } := by
  have e : cdiv d d = .ok 1 := by
    have := cdiv_mul_left 1 hd
    rwa [mul_one] at this
  unfold add_fractions
  simp only [lcm_self hd, e]
  congr 2
  ring

theorem add_fractions_self_witness :
    (-6 : Int) ≠ 0 ∧
    add_fractions { numerator := 4, denominator := -6 } { numerator := 4, denominator := -6 }
      = .ok { numerator := 2 * 4, denominator := -6 } :=
  ⟨by decide, add_fractions_self 4 (-6) (by decide)⟩

/-- C4. `gcd(a, 0) == a` for every integer `a`, of either sign or zero; in particular
`gcd(0, 0) == 0`. -/
theorem gcd_zero_second (a : Int) : gcd a 0 = a ∧ gcd 0 0 = 0 :=
  ⟨gcd_zero_right a, rfl⟩

theorem lcm_zero_right {a : Int} (ha : a ≠ 0) : lcm a 0 = .ok 0 := by
  have g1 : gcd a 0 ≠ 0 := by rw [gcd_zero_right]; exact ha
  unfold lcm
  rw [cdiv_of_ne_zero _ g1]
  simp [cabs]

theorem lcm_zero_left {a : Int} (ha : a ≠ 0) : lcm 0 a = .ok 0 := by
  have g2 : gcd 0 a ≠ 0 := fun h0 => ha ((gcd_eq_zero_iff 0 a).mp h0).2
  unfold lcm
  rw [cdiv_of_ne_zero _ g2]
  simp [cabs]

theorem lcm_zero_zero : lcm 0 0 = .error .divByZero := rfl

/-- The three ways in which `add_fractions` meets a zero denominator. -/
theorem add_fractions_zero_denominator (f1 f2 : fraction_t)
    (h : f1.denominator = 0 ∨ f2.denominator = 0) :
    add_fractions f1 f2 = .error .divByZero := by
  unfold add_fractions
  by_cases h1 : f1.denominator = 0
  · by_cases h2 : f2.denominator = 0
    · rw [h1, h2, lcm_zero_zero]
    · rw [h1, lcm_zero_left h2]
      simp only [cdiv_zero]
  · have h2 : f2.denominator = 0 := h.resolve_left h1
    rw [h2, lcm_zero_right h1]
    simp only [cdiv_of_ne_zero 0 h1, cdiv_zero]

/-- C11. `add_fractions(f1, f2)` fails with a division by zero exactly when
`f1.denominator == 0` or `f2.denominator == 0`. When exactly one denominator is zero,
`lcm` returns `0` and the scaling step divides `0` by the zero denominator; when both
are zero, `lcm` itself fails; when both are nonzero, a record is returned. -/
theorem add_fractions_divByZero_iff (f1 f2 : fraction_t) :
    (add_fractions f1 f2 = .error .divByZero ↔
      f1.denominator = 0 ∨ f2.denominator = 0) ∧
    (f1.denominator = 0 → f2.denominator ≠ 0 →
      lcm f1.denominator f2.denominator = .ok 0 ∧
      cdiv 0 f1.denominator = .error .divByZero) ∧
    (f1.denominator ≠ 0 → f2.denominator = 0 →
      lcm f1.denominator f2.denominator = .ok 0 ∧
      cdiv 0 f2.denominator = .error .divByZero) ∧
    (f1.denominator = 0 → f2.denominator = 0 →
      lcm f1.denominator f2.denominator = .error .divByZero) ∧
    (f1.denominator ≠ 0 → f2.denominator ≠ 0 →
      ∃ r : fraction_t, add_fractions f1 f2 = .ok r) := by
  have hok : f1.denominator ≠ 0 → f2.denominator ≠ 0 →
      ∃ r : fraction_t, add_fractions f1 f2 = .ok r := by
    intro h1 h2
    obtain ⟨u, v, s, -, -, -, -, hr⟩ := add_fractions_shape f1 f2 h1 h2
    exact ⟨_, hr⟩
  refine ⟨⟨?_, add_fractions_zero_denominator f1 f2⟩, ?_, ?_, ?_, hok⟩
  · intro h
    by_contra hne
    rw [not_or] at hne
    obtain ⟨r, hr⟩ := hok hne.1 hne.2
    rw [hr] at h
    cases h
  · intro h1 h2
    rw [h1]
    exact ⟨lcm_zero_left h2, cdiv_zero 0⟩
  · intro h1 h2
    rw [h2]
    exact ⟨lcm_zero_right h1, cdiv_zero 0⟩
  · intro h1 h2
    rw [h1, h2]
    rfl

theorem add_fractions_divByZero_iff_witness :
    add_fractions { numerator := 1, denominator := 0 } { numerator := 1, denominator := 3 }
      = .error .divByZero ∧
    (lcm 0 3 = .ok 0 ∧ cdiv 0 0 = .error .divByZero) ∧
    (lcm 3 0 = .ok 0 ∧ cdiv 0 0 = .error .divByZero) ∧
    lcm 0 0 = .error .divByZero ∧
    ∃ r : fraction_t,
      add_fractions { numerator := 1, denominator := 2 }
        { numerator := 1, denominator := 3 } = .ok r :=
  ⟨(add_fractions_divByZero_iff ⟨1, 0⟩ ⟨1, 3⟩).1.mpr (Or.inl rfl),
    (add_fractions_divByZero_iff ⟨1, 0⟩ ⟨1, 3⟩).2.1 rfl (by decide),
    (add_fractions_divByZero_iff ⟨1, 3⟩ ⟨1, 0⟩).2.2.1 (by decide) rfl,
    (add_fractions_divByZero_iff ⟨1, 0⟩ ⟨1, 0⟩).2.2.2.1 rfl rfl,
    (add_fractions_divByZero_iff ⟨1, 2⟩ ⟨1, 3⟩).2.2.2.2 (by decide) (by decide)⟩

/-! ### The functions on the 32-bit `int` -/

theorem tmod_of_natAbs_lt {a b : Int} (h : a.natAbs < b.natAbs) : a.tmod b = a := by
  have h0 : a.tdiv b = 0 := by
    apply Int.natAbs_eq_zero.mp
    rw [Int.natAbs_tdiv]
    exact Nat.div_eq_of_lt h
  rw [Int.tmod_def, h0]
  simp

theorem cmod32_ok (a : Int) {b : Int} (hb : b ≠ 0) (h : ¬ (a = INT_MIN ∧ b = -1)) :
    cmod32 a b = .ok (a.tmod b) := by
  simp [cmod32, hb, h]

theorem cmod32_min_neg_one : cmod32 INT_MIN (-1) = .error .overflow := rfl

/-- Any two recursion depths of at least `|b|` give the same result. -/
theorem gcd32Aux_depth : ∀ (d1 d2 : Nat) (a b : Int), b.natAbs ≤ d1 → b.natAbs ≤ d2 →
    gcd32Aux d1 a b = gcd32Aux d2 a b := by
  intro d1
  induction d1 with
  | zero =>
    intro d2 a b h1 _
    have hb : b = 0 := Int.natAbs_eq_zero.mp (Nat.le_zero.mp h1)
    subst hb
    cases d2 <;> simp [gcd32Aux]
  | succ n ih =>
    intro d2 a b h1 h2
    by_cases hb : b = 0
    · subst hb
      cases d2 <;> simp [gcd32Aux]
    · have hlt := natAbs_tmod_lt a hb
      cases d2 with
      | zero => exact absurd (Int.natAbs_eq_zero.mp (Nat.le_zero.mp h2)) hb
      | succ m =>
        simp only [gcd32Aux, hb, if_false]
        by_cases ht : a = INT_MIN ∧ b = -1
        · simp [cmod32, hb, ht]
        · rw [cmod32_ok a hb ht]
          exact ih m b (a.tmod b) (by omega) (by omega)

/-- The defining equation of the source on the 32-bit `int`: `gcd(a, b)` is `a` when
`b == 0`, and `gcd(b, a % b)` otherwise, unless `a % b` stops the program. -/
theorem gcd32_unfold (a b : Int) :
    gcd32 a b = if b = 0 then .ok a else
      match cmod32 a b with
      | .error e => .error e
      | .ok r => gcd32 b r := by
  by_cases hb : b = 0
  · subst hb
    simp [gcd32, gcd32Aux]
  · have hlt := natAbs_tmod_lt a hb
    obtain ⟨m, hm⟩ : ∃ m, b.natAbs = m + 1 :=
      Nat.exists_eq_succ_of_ne_zero (fun h0 => hb (Int.natAbs_eq_zero.mp h0))
    by_cases ht : a = INT_MIN ∧ b = -1
    · simp [gcd32, hm, gcd32Aux, cmod32, hb, ht]
    · have e : gcd32 a b = gcd32Aux m b (a.tmod b) := by
        simp [gcd32, hm, gcd32Aux, hb, cmod32_ok a hb ht]
      rw [e, gcd32Aux_depth m (a.tmod b).natAbs b (a.tmod b) (by omega) (Nat.le_refl _)]
      simp [hb, cmod32_ok a hb ht, gcd32]

theorem gcd32_zero_right (a : Int) : gcd32 a 0 = .ok a := by
  rw [gcd32_unfold]
  simp

theorem gcd32_step (a : Int) {b : Int} (hb : b ≠ 0) (h : ¬ (a = INT_MIN ∧ b = -1)) :
    gcd32 a b = gcd32 b (a.tmod b) := by
  rw [gcd32_unfold]
  simp [hb, cmod32_ok a hb h]

theorem gcd32_trap {a b : Int} (h : a = INT_MIN ∧ b = -1) :
    gcd32 a b = .error .overflow := by
  obtain ⟨rfl, rfl⟩ := h
  rfl

/-- When the first argument is not `INT_MIN` and the second is above `INT_MIN` in absolute
value, no remainder is `INT_MIN % -1`, and `gcd` returns what it returns over the
mathematical integers. -/
theorem gcd32_of_small : ∀ (n : Nat) (a b : Int), b.natAbs = n → a ≠ INT_MIN →
    b.natAbs < 2147483648 → gcd32 a b = .ok (gcd a b) := by
  intro n
  induction n using Nat.strong_induction_on with
  | _ n ih =>
    intro a b hn ha hb
    by_cases hb0 : b = 0
    · subst hb0
      rw [gcd32_zero_right, gcd_zero_right]
    · have hlt := natAbs_tmod_lt a hb0
      have hbm : b ≠ INT_MIN := by
        intro h
        rw [h] at hb
        exact absurd hb (by decide)
      rw [gcd32_step a hb0 (fun h => ha h.1), gcd_of_ne_zero a hb0]
      exact ih (a.tmod b).natAbs (by omega) b (a.tmod b) rfl hbm (by omega)

/-- The function `gcd` on two values of the 32-bit `int`: it is stopped by the remainder
`INT_MIN % -1` on the pairs `(INT_MIN, -1)` and `(-1, INT_MIN)`, and on every other pair
it returns what it returns over the mathematical integers. -/
theorem gcd32_in_int (a b : Int) (ha : in_int a) (hb : in_int b) :
    gcd32 a b =
      if (a = INT_MIN ∧ b = -1) ∨ (a = -1 ∧ b = INT_MIN) then .error .overflow
      else .ok (gcd a b) := by
  have hmin : INT_MIN = -2147483648 := rfl
  have hmax : INT_MAX = 2147483647 := rfl
  obtain ⟨ha1, ha2⟩ := ha
  obtain ⟨hb1, hb2⟩ := hb
  by_cases hb0 : b = 0
  · subst hb0
    have hc : ¬ ((a = INT_MIN ∧ (0 : Int) = -1) ∨ (a = -1 ∧ (0 : Int) = INT_MIN)) := by
      rw [hmin]
      omega
    rw [if_neg hc, gcd32_zero_right, gcd_zero_right]
  · by_cases ham : a = INT_MIN
    · by_cases hb1 : b = -1
      · rw [if_pos (Or.inl ⟨ham, hb1⟩)]
        exact gcd32_trap ⟨ham, hb1⟩
      · have hc : ¬ ((a = INT_MIN ∧ b = -1) ∨ (a = -1 ∧ b = INT_MIN)) := by
          rw [hmin] at ham ⊢
          omega
        have hlt := natAbs_tmod_lt a hb0
        rw [if_neg hc, gcd32_step a hb0 (fun h => hb1 h.2), gcd_of_ne_zero a hb0]
        by_cases hbm : b = INT_MIN
        · have e : a.tmod b = 0 := by rw [ham, hbm]; rfl
          rw [e, gcd32_zero_right, gcd_zero_right]
        · exact gcd32_of_small _ b (a.tmod b) rfl hbm (by rw [hmin] at hbm; omega)
    · by_cases hbm : b = INT_MIN
      · have hlt : a.natAbs < b.natAbs := by
          rw [hbm, hmin]
          rw [hmin] at ham
          omega
        have e : a.tmod b = a := tmod_of_natAbs_lt hlt
        rw [gcd32_step a hb0 (fun h => ham h.1), gcd_of_ne_zero a hb0, e]
        by_cases ha0 : a = 0
        · have hc : ¬ ((a = INT_MIN ∧ b = -1) ∨ (a = -1 ∧ b = INT_MIN)) := by
            rw [hmin] at ham ⊢
            omega
          rw [if_neg hc, ha0, gcd32_zero_right, gcd_zero_right]
        · by_cases ha1 : a = -1
          · rw [if_pos (Or.inr ⟨ha1, hbm⟩)]
            exact gcd32_trap ⟨hbm, ha1⟩
          · have hc : ¬ ((a = INT_MIN ∧ b = -1) ∨ (a = -1 ∧ b = INT_MIN)) := by
              rw [hmin] at ham ⊢
              omega
            have hlt2 := natAbs_tmod_lt b ha0
            rw [if_neg hc, gcd32_step b ha0 (fun h => ha1 h.2), gcd_of_ne_zero b ha0]
            exact gcd32_of_small _ a (b.tmod a) rfl ham (by rw [hmin] at ham; omega)
      · have hc : ¬ ((a = INT_MIN ∧ b = -1) ∨ (a = -1 ∧ b = INT_MIN)) := by
          rw [hmin] at ham hbm ⊢
          omega
        rw [if_neg hc]
        exact gcd32_of_small _ a b rfl ham (by rw [hmin] at hbm; omega)

/-- Whenever `gcd` returns on the 32-bit `int`, it returns what it returns over the
mathematical integers. -/
theorem gcd32_ok_eq : ∀ (n : Nat) (a b g : Int), b.natAbs = n → gcd32 a b = .ok g →
    g = gcd a b := by
  intro n
  induction n using Nat.strong_induction_on with
  | _ n ih =>
    intro a b g hn h
    by_cases hb0 : b = 0
    · subst hb0
      rw [gcd32_zero_right] at h
      rw [gcd_zero_right]
      injection h with h
      exact h.symm
    · have hlt := natAbs_tmod_lt a hb0
      by_cases ht : a = INT_MIN ∧ b = -1
      · rw [gcd32_trap ht] at h
        cases h
      · rw [gcd32_step a hb0 ht] at h
        rw [gcd_of_ne_zero a hb0]
        exact ih (a.tmod b).natAbs (by omega) b (a.tmod b) g rfl h

/-- A budget of more than `|b|` nested calls is enough for `gcd(a, b)` to return or to
be stopped. -/
theorem gcd32Fuel_of_lt : ∀ (calls : Nat) (a b : Int), b.natAbs < calls →
    gcd32Fuel calls a b = some (gcd32 a b) := by
  intro calls
  induction calls with
  | zero =>
    intro a b h
    exact absurd h (Nat.not_lt_zero _)
  | succ k ih =>
    intro a b h
    by_cases hb : b = 0
    · subst hb
      simp [gcd32Fuel, gcd32_zero_right]
    · have hlt := natAbs_tmod_lt a hb
      by_cases ht : a = INT_MIN ∧ b = -1
      · rw [gcd32_trap ht]
        simp [gcd32Fuel, cmod32, hb, ht]
      · simp only [gcd32Fuel, hb, if_false, cmod32_ok a hb ht]
        rw [ih b (a.tmod b) (by omega), gcd32_step a hb ht]

/-- When `gcd(a, b)` returns `g`, one of its first `|b| + 1` nested calls has the
arguments `(g, 0)`. -/
theorem gcd32_chain : ∀ (k : Nat) (a b g : Int), b.natAbs = k → gcd32 a b = .ok g →
    ∃ n : Nat, n ≤ b.natAbs ∧ gcd32Call n a b = some (g, 0) := by
  intro k
  induction k using Nat.strong_induction_on with
  | _ k ih =>
    intro a b g hk h
    by_cases hb0 : b = 0
    · subst hb0
      rw [gcd32_zero_right] at h
      injection h with h
      subst h
      exact ⟨0, Nat.zero_le _, rfl⟩
    · have hlt := natAbs_tmod_lt a hb0
      by_cases ht : a = INT_MIN ∧ b = -1
      · rw [gcd32_trap ht] at h
        cases h
      · rw [gcd32_step a hb0 ht] at h
        obtain ⟨n, hle, hc⟩ := ih (a.tmod b).natAbs (by omega) b (a.tmod b) g rfl h
        refine ⟨n + 1, by omega, ?_⟩
        simp only [gcd32Call, hb0, if_false, cmod32_ok a hb0 ht]
        exact hc

theorem coprime_factors_two_pow (x y : Nat) (h : x * y = 2 ^ 31) (hg : Nat.gcd x y = 1) :
    x = 1 ∨ y = 1 := by
  have hx : x ∣ 2 ^ 31 := ⟨y, h.symm⟩
  have hy : y ∣ 2 ^ 31 := ⟨x, by rw [Nat.mul_comm]; exact h.symm⟩
  obtain ⟨i, -, rfl⟩ := (Nat.dvd_prime_pow Nat.prime_two).mp hx
  obtain ⟨j, -, rfl⟩ := (Nat.dvd_prime_pow Nat.prime_two).mp hy
  cases i with
  | zero => left; rfl
  | succ i =>
    cases j with
    | zero => right; rfl
    | succ j =>
      exfalso
      have h2 : 2 ∣ Nat.gcd (2 ^ (i + 1)) (2 ^ (j + 1)) :=
        Nat.dvd_gcd (Dvd.intro_left _ rfl) (Dvd.intro_left _ rfl)
      rw [hg] at h2
      exact absurd h2 (by decide)

theorem gcd_one_min : gcd 1 INT_MIN = 1 := by
  have h1 : INT_MIN ≠ 0 := by decide
  have h2 : (1 : Int) ≠ 0 := by decide
  have e1 : (1 : Int).tmod INT_MIN = 1 := rfl
  have e2 : INT_MIN.tmod 1 = 0 := rfl
  rw [gcd_of_ne_zero 1 h1, e1, gcd_of_ne_zero INT_MIN h2, e2, gcd_zero_right]

theorem gcd_min_one : gcd INT_MIN 1 = 1 := by
  have h2 : (1 : Int) ≠ 0 := by decide
  have e2 : INT_MIN.tmod 1 = 0 := rfl
  rw [gcd_of_ne_zero INT_MIN h2, e2, gcd_zero_right]

/-- When the product of two values of `int` is `INT_MIN`, `gcd` does not return `-1`:
the final division of `lcm` is not `INT_MIN / -1`. -/
theorem gcd_ne_neg_one_of_mul_min (a b : Int) (ha : in_int a) (hb : in_int b)
    (h : a * b = INT_MIN) : gcd a b ≠ -1 := by
  have hmin : INT_MIN = -2147483648 := rfl
  have hmax : INT_MAX = 2147483647 := rfl
  obtain ⟨ha1, ha2⟩ := ha
  obtain ⟨hb1, hb2⟩ := hb
  intro hg
  have hn : Nat.gcd a.natAbs b.natAbs = 1 := by
    rw [← natAbs_gcd, hg]
    rfl
  have hp : a.natAbs * b.natAbs = 2 ^ 31 := by
    rw [← Int.natAbs_mul, h]
    rfl
  rcases coprime_factors_two_pow _ _ hp hn with h1 | h1
  · have hb31 : b.natAbs = 2 ^ 31 := by rw [h1] at hp; omega
    have hbm : b = INT_MIN := by rw [hmin]; omega
    have ha' : a = 1 := by
      rcases Int.natAbs_eq a with e | e
      · rw [h1] at e
        exact e
      · rw [h1] at e
        rw [e, hbm, hmin] at h
        exact absurd h (by decide)
    rw [ha', hbm, gcd_one_min] at hg
    exact absurd hg (by decide)
  · have ha31 : a.natAbs = 2 ^ 31 := by rw [h1] at hp; omega
    have ham : a = INT_MIN := by rw [hmin]; omega
    have hb' : b = 1 := by
      rcases Int.natAbs_eq b with e | e
      · rw [h1] at e
        exact e
      · rw [h1] at e
        rw [e, ham, hmin] at h
        exact absurd h (by decide)
    rw [hb', ham, gcd_min_one] at hg
    exact absurd hg (by decide)

theorem wrap32_of_range {x : Int} (h1 : -(2 ^ 31) ≤ x) (h2 : x < 2 ^ 31) : wrap32 x = x := by
  unfold wrap32
  rw [Int.emod_eq_of_lt (by omega) (by omega)]
  omega

theorem wrap32_of_in_int {x : Int} (h : in_int x) : wrap32 x = x := by
  have hmin : INT_MIN = -2147483648 := rfl
  have hmax : INT_MAX = 2147483647 := rfl
  obtain ⟨h1, h2⟩ := h
  exact wrap32_of_range (by omega) (by omega)

theorem cdiv32_ok (x : Int) {g : Int} (hg : g ≠ 0) (h : ¬ (x = INT_MIN ∧ g = -1)) :
    cdiv32 x g = .ok (x.tdiv g) := by
  simp [cdiv32, hg, h]

/-- On values of `int` whose product is within the range of `int` and is not `INT_MIN`,
so that nothing overflows, `lcm` on the 32-bit `int` is `lcm` over the mathematical
integers. -/
theorem lcm32_eq_lcm (a b : Int) (ha : in_int a) (hb : in_int b) (hp : in_int (a * b))
    (hm : a * b ≠ INT_MIN) : lcm32 a b = lcm a b := by
  have hmin : INT_MIN = -2147483648 := rfl
  have hmax : INT_MAX = 2147483647 := rfl
  have hc : ¬ ((a = INT_MIN ∧ b = -1) ∨ (a = -1 ∧ b = INT_MIN)) := by
    rintro (⟨h1, h2⟩ | ⟨h1, h2⟩)
    · rw [h1, h2] at hp
      exact absurd hp (by decide)
    · rw [h1, h2] at hp
      exact absurd hp (by decide)
  have hg32 : gcd32 a b = .ok (gcd a b) := by
    rw [gcd32_in_int a b ha hb, if_neg hc]
  have hw : wrap32 (a * b) = a * b := wrap32_of_in_int hp
  obtain ⟨hp1, hp2⟩ := hp
  have hnn : 0 ≤ cabs (a * b) := by
    rw [cabs_eq_abs]
    exact abs_nonneg _
  have hle : cabs (a * b) ≤ INT_MAX := by
    rw [cabs_eq_abs, abs_le]
    constructor
    · rw [hmin] at hm hp1
      rw [hmax]
      omega
    · exact hp2
  have hwc : wrap32 (cabs (a * b)) = cabs (a * b) :=
    wrap32_of_range (by omega) (by rw [hmax] at hle; omega)
  unfold lcm32 lcm
  rw [hg32]
  simp only [hw, hwc]
  by_cases hg : gcd a b = 0
  · rw [hg]
    rfl
  · have hnm : ¬ (cabs (a * b) = INT_MIN ∧ gcd a b = -1) := by
      rintro ⟨h1, -⟩
      rw [hmin] at h1
      omega
    rw [cdiv32_ok _ hg hnm, cdiv_of_ne_zero _ hg]

theorem gcd_example_int_min : gcd 65536 (-32768) = -32768 := by
  have h1 : (-32768 : Int) ≠ 0 := by decide
  have e1 : (65536 : Int).tmod (-32768) = 0 := rfl
  rw [gcd_of_ne_zero 65536 h1, e1, gcd_zero_right]

/-- C5, as the code behaves: `a = 65536` and `b = -32768` are nonzero and their product
`INT_MIN` is within the range of `int`, but `abs(a * b)` wraps to `INT_MIN`, `lcm(a, b)`
returns `65536`, `gcd(a, b)` returns `-32768`, and their product `-2^31` is not the
absolute value `2^31` of `a * b`. -/
theorem lcm32_product_int_min :
    (65536 : Int) ≠ 0 ∧ (-32768 : Int) ≠ 0 ∧ in_int (65536 * -32768) ∧
    gcd32 65536 (-32768) = .ok (-32768) ∧
    lcm32 65536 (-32768) = .ok 65536 ∧
    (65536 : Int) * (-32768) ≠ |(65536 : Int) * (-32768)| := by
  have hg : gcd32 65536 (-32768) = .ok (-32768) := by
    rw [gcd32_in_int 65536 (-32768) (by decide) (by decide), if_neg (by decide),
      gcd_example_int_min]
  refine ⟨by decide, by decide, by decide, hg, ?_, by decide⟩
  unfold lcm32
  rw [hg]
  rfl

/-- C5, amended. For all nonzero values `a` and `b` of `int`, of either sign, whose
product is within the range of `int`, `gcd(a, b)` returns a value `g` and `lcm(a, b)` a
value `l` with `l * g` equal to the `int` that `abs(a * b)` returns. That `int` is the
absolute value of `a * b` unless `a * b` is `INT_MIN`, where `abs` wraps to `INT_MIN` and
`l * g` is the negative of the absolute value. -/
theorem lcm32_mul_gcd32 (a b : Int) (ha : in_int a) (hb : in_int b)
    (ha0 : a ≠ 0) (_hb0 : b ≠ 0) (hp : in_int (a * b)) :
    ∃ l g : Int, gcd32 a b = .ok g ∧ lcm32 a b = .ok l ∧
      l * g = wrap32 (cabs (a * b)) ∧
      (a * b ≠ INT_MIN → l * g = |a * b|) ∧
      (a * b = INT_MIN → l * g = -|a * b|) := by
  have hmin : INT_MIN = -2147483648 := rfl
  have hmax : INT_MAX = 2147483647 := rfl
  have hc : ¬ ((a = INT_MIN ∧ b = -1) ∨ (a = -1 ∧ b = INT_MIN)) := by
    rintro (⟨h1, h2⟩ | ⟨h1, h2⟩)
    · rw [h1, h2] at hp
      exact absurd hp (by decide)
    · rw [h1, h2] at hp
      exact absurd hp (by decide)
  have hg32 : gcd32 a b = .ok (gcd a b) := by
    rw [gcd32_in_int a b ha hb, if_neg hc]
  have hg : gcd a b ≠ 0 := fun h0 => ha0 ((gcd_eq_zero_iff a b).mp h0).1
  obtain ⟨u, v, s, hu, hv, hs, habs, -⟩ := lcm_shape a b hg
  have hw : wrap32 (a * b) = a * b := wrap32_of_in_int hp
  have habs2 : cabs (a * b) = |a * b| := cabs_eq_abs _
  obtain ⟨hp1, hp2⟩ := hp
  by_cases hm : a * b = INT_MIN
  · have hne := gcd_ne_neg_one_of_mul_min a b ha hb hm
    have hwc : wrap32 (cabs (a * b)) = INT_MIN := by
      rw [hm]
      rfl
    have hdiv : INT_MIN = gcd a b * (gcd a b * u * v) := by
      rw [← hm]
      generalize gcd a b = g at hu hv
      rw [hu, hv]
      ring
    have hq : INT_MIN.tdiv (gcd a b) = gcd a b * u * v :=
      Int.tdiv_eq_of_eq_mul_right hg hdiv
    refine ⟨gcd a b * u * v, gcd a b, hg32, ?_, ?_, fun h => absurd hm h, ?_⟩
    · unfold lcm32
      rw [hg32]
      simp only [hw, hwc]
      rw [cdiv32_ok _ hg (fun h => hne h.2), hq]
    · rw [hwc, hdiv]
      ring
    · intro _
      have e : |a * b| = 2147483648 := by
        rw [hm]
        rfl
      rw [e, ← hmin, hdiv]
      ring
  · have hle : |a * b| ≤ INT_MAX := by
      rw [abs_le]
      constructor
      · rw [hmin] at hm hp1
        rw [hmax]
        omega
      · exact hp2
    have hnn : 0 ≤ |a * b| := abs_nonneg _
    have hwc : wrap32 (cabs (a * b)) = |a * b| := by
      rw [habs2]
      exact wrap32_of_range (by omega) (by rw [hmax] at hle; omega)
    have hdiv : |a * b| = gcd a b * (gcd a b * u * v * s) := by
      rw [← habs2, habs]
      generalize gcd a b = g at hu hv
      rw [hu, hv]
      ring
    have hq : (|a * b|).tdiv (gcd a b) = gcd a b * u * v * s :=
      Int.tdiv_eq_of_eq_mul_right hg hdiv
    have hnm : ¬ (|a * b| = INT_MIN ∧ gcd a b = -1) := by
      rintro ⟨h1, -⟩
      rw [hmin] at h1
      omega
    have hlg : gcd a b * u * v * s * gcd a b = |a * b| := by
      rw [hdiv]
      ring
    refine ⟨gcd a b * u * v * s, gcd a b, hg32, ?_, ?_, fun _ => hlg, fun h => absurd h hm⟩
    · unfold lcm32
      rw [hg32]
      simp only [hw, hwc]
      rw [cdiv32_ok _ hg hnm, hq]
    · rw [hwc]
      exact hlg

theorem lcm32_mul_gcd32_witness :
    in_int (-4) ∧ in_int 6 ∧ (-4 : Int) ≠ 0 ∧ (6 : Int) ≠ 0 ∧ in_int (-4 * 6) ∧
    ∃ l g : Int, gcd32 (-4) 6 = .ok g ∧ lcm32 (-4) 6 = .ok l ∧
      l * g = wrap32 (cabs (-4 * 6)) ∧
      ((-4 : Int) * 6 ≠ INT_MIN → l * g = |(-4 : Int) * 6|) ∧
      ((-4 : Int) * 6 = INT_MIN → l * g = -|(-4 : Int) * 6|) :=
  ⟨by decide, by decide, by decide, by decide, by decide,
    lcm32_mul_gcd32 (-4) 6 (by decide) (by decide) (by decide) (by decide) (by decide)⟩

/-- C6, as the code behaves: on the values `INT_MIN` and `-1` of `int`, in either
order, `gcd` takes the remainder `INT_MIN % -1` and is stopped: it returns no value. -/
theorem gcd32_int_min_neg_one :
    in_int INT_MIN ∧ in_int (-1) ∧
    gcd32 INT_MIN (-1) = .error .overflow ∧
    gcd32 (-1) INT_MIN = .error .overflow ∧
    ¬ ∃ g : Int, gcd32 INT_MIN (-1) = .ok g ∧
      |g| = ((Nat.gcd INT_MIN.natAbs (-1 : Int).natAbs : Nat) : Int) := by
  have h1 : gcd32 INT_MIN (-1) = .error .overflow := gcd32_trap ⟨rfl, rfl⟩
  have h2 : gcd32 (-1) INT_MIN = .error .overflow := by
    rw [gcd32_in_int (-1) INT_MIN (by decide) (by decide), if_pos (Or.inr ⟨rfl, rfl⟩)]
  refine ⟨by decide, by decide, h1, h2, ?_⟩
  rintro ⟨g, hg, -⟩
  rw [h1] at hg
  cases hg

/-- C6, amended. For all values `a` and `b` of `int`, negative ones included, other than
the pairs `(INT_MIN, -1)` and `(-1, INT_MIN)`, `gcd(a, b)` returns a value whose absolute
value is the greatest common divisor of `|a|` and `|b|`. On those two pairs the remainder
`INT_MIN % -1` stops the program. -/
theorem abs_gcd32 (a b : Int) (ha : in_int a) (hb : in_int b) :
    (¬ ((a = INT_MIN ∧ b = -1) ∨ (a = -1 ∧ b = INT_MIN)) →
      ∃ g : Int, gcd32 a b = .ok g ∧
        |g| = ((Nat.gcd a.natAbs b.natAbs : Nat) : Int)) ∧
    ((a = INT_MIN ∧ b = -1) ∨ (a = -1 ∧ b = INT_MIN) →
      gcd32 a b = .error .overflow) := by
  constructor
  · intro hc
    refine ⟨gcd a b, by rw [gcd32_in_int a b ha hb, if_neg hc], ?_⟩
    rw [← natAbs_gcd, Int.abs_eq_natAbs]
  · intro hc
    rw [gcd32_in_int a b ha hb, if_pos hc]

theorem abs_gcd32_witness :
    in_int (-12) ∧ in_int 18 ∧
    (∃ g : Int, gcd32 (-12) 18 = .ok g ∧
      |g| = ((Nat.gcd (-12 : Int).natAbs (18 : Int).natAbs : Nat) : Int)) ∧
    gcd32 (-1) INT_MIN = .error .overflow :=
  ⟨by decide, by decide,
    (abs_gcd32 (-12) 18 (by decide) (by decide)).1 (by decide),
    (abs_gcd32 (-1) INT_MIN (by decide) (by decide)).2 (Or.inr ⟨rfl, rfl⟩)⟩

theorem gcd_min_neg_three : gcd INT_MIN (-3) = -1 := by
  have h1 : (-3 : Int) ≠ 0 := by decide
  have h2 : (-2 : Int) ≠ 0 := by decide
  have h3 : (-1 : Int) ≠ 0 := by decide
  have e1 : INT_MIN.tmod (-3) = -2 := rfl
  have e2 : (-3 : Int).tmod (-2) = -1 := rfl
  have e3 : (-2 : Int).tmod (-1) = 0 := rfl
  rw [gcd_of_ne_zero INT_MIN h1, e1, gcd_of_ne_zero (-3) h2, e2, gcd_of_ne_zero (-2) h3, e3,
    gcd_zero_right]

/-- C10, as the code behaves: `-1` and `INT_MIN` are values of `int` that are not both
zero, but `lcm(-1, INT_MIN)` returns no value: `gcd` takes the remainder `INT_MIN % -1`
and the program is stopped. The same happens in the final division of
`lcm(INT_MIN, -3)`, which is `INT_MIN / -1`. -/
theorem lcm32_neg_one_int_min :
    in_int (-1) ∧ in_int INT_MIN ∧ ¬ ((-1 : Int) = 0 ∧ INT_MIN = 0) ∧
    lcm32 (-1) INT_MIN = .error .overflow ∧
    (¬ ∃ l : Int, lcm32 (-1) INT_MIN = .ok l) ∧
    lcm32 INT_MIN (-3) = .error .overflow := by
  have h2 : gcd32 (-1) INT_MIN = .error .overflow := by
    rw [gcd32_in_int (-1) INT_MIN (by decide) (by decide), if_pos (Or.inr ⟨rfl, rfl⟩)]
  have h3 : gcd32 INT_MIN (-3) = .ok (-1) := by
    rw [gcd32_in_int INT_MIN (-3) (by decide) (by decide), if_neg (by decide),
      gcd_min_neg_three]
  have hl : lcm32 (-1) INT_MIN = .error .overflow := by
    unfold lcm32
    rw [h2]
  refine ⟨by decide, by decide, by decide, hl, ?_, ?_⟩
  · rintro ⟨l, h⟩
    rw [hl] at h
    cases h
  · unfold lcm32
    rw [h3]
    rfl

/-- C10, amended. For all values `a` and `b` of `int`: `lcm(a, b)` fails with a division
by zero exactly when `a == 0` and `b == 0`, the divisor `gcd(a, b)`, when `gcd` returns,
being zero exactly then; `lcm(a, b)` is stopped by a division overflow exactly when `gcd`
takes the remainder `INT_MIN % -1`, on the pairs `(INT_MIN, -1)` and `(-1, INT_MIN)`, or
when the final division is `INT_MIN / -1`; for every other pair `lcm` returns the value
`abs(a * b) / gcd(a, b)`, product and `abs` wrapped to 32 bits; and
`lcm(a, 0) = lcm(0, a) = 0` for `a != 0`. -/
theorem lcm32_outcome (a b : Int) (ha : in_int a) (hb : in_int b) :
    (lcm32 a b = .error .divByZero ↔ a = 0 ∧ b = 0) ∧
    (∀ g : Int, gcd32 a b = .ok g → (g = 0 ↔ a = 0 ∧ b = 0)) ∧
    (lcm32 a b = .error .overflow ↔
      ((a = INT_MIN ∧ b = -1) ∨ (a = -1 ∧ b = INT_MIN)) ∨
      (gcd32 a b = .ok (-1) ∧ wrap32 (cabs (wrap32 (a * b))) = INT_MIN)) ∧
    (lcm32 a b = .error .divByZero ∨ lcm32 a b = .error .overflow ∨
      ∃ g : Int, gcd32 a b = .ok g ∧
        lcm32 a b = .ok ((wrap32 (cabs (wrap32 (a * b)))).tdiv g)) ∧
    (a ≠ 0 → lcm32 a 0 = .ok 0 ∧ lcm32 0 a = .ok 0) := by
  have hmin : INT_MIN = -2147483648 := rfl
  have hB := gcd32_in_int a b ha hb
  have hgz : ∀ g : Int, gcd32 a b = .ok g → (g = 0 ↔ a = 0 ∧ b = 0) := by
    intro g hg
    rw [gcd32_ok_eq _ a b g rfl hg]
    exact gcd_eq_zero_iff a b
  have hzero : a ≠ 0 → lcm32 a 0 = .ok 0 ∧ lcm32 0 a = .ok 0 := by
    intro ha0
    have h1 : gcd32 a 0 = .ok a := gcd32_zero_right a
    have hc : ¬ (((0 : Int) = INT_MIN ∧ a = -1) ∨ ((0 : Int) = -1 ∧ a = INT_MIN)) := by
      rw [hmin]
      omega
    have h2 : gcd32 0 a = .ok (gcd 0 a) := by
      rw [gcd32_in_int 0 a (by decide) ha, if_neg hc]
    have hg2 : gcd 0 a ≠ 0 := fun h0 => ha0 ((gcd_eq_zero_iff 0 a).mp h0).2
    have hx1 : wrap32 (cabs (wrap32 (a * 0))) = 0 := by
      rw [mul_zero]
      rfl
    have hx2 : wrap32 (cabs (wrap32 (0 * a))) = 0 := by
      rw [zero_mul]
      rfl
    have hn : ∀ g : Int, ¬ ((0 : Int) = INT_MIN ∧ g = -1) := by
      intro g h
      exact absurd h.1 (by decide)
    constructor
    · unfold lcm32
      rw [h1]
      simp only [hx1]
      rw [cdiv32_ok 0 ha0 (hn a)]
      simp
    · unfold lcm32
      rw [h2]
      simp only [hx2]
      rw [cdiv32_ok 0 hg2 (hn _)]
      simp
  by_cases hc : (a = INT_MIN ∧ b = -1) ∨ (a = -1 ∧ b = INT_MIN)
  · rw [if_pos hc] at hB
    have hl : lcm32 a b = .error .overflow := by
      unfold lcm32
      rw [hB]
    have hne : ¬ (a = 0 ∧ b = 0) := by
      rw [hmin] at hc
      omega
    refine ⟨?_, hgz, ?_, Or.inr (Or.inl hl), hzero⟩
    · rw [hl]
      constructor
      · intro h
        cases h
      · intro h
        exact absurd h hne
    · exact ⟨fun _ => Or.inl hc, fun _ => hl⟩
  · rw [if_neg hc] at hB
    have hl : lcm32 a b = cdiv32 (wrap32 (cabs (wrap32 (a * b)))) (gcd a b) := by
      unfold lcm32
      rw [hB]
    by_cases hg0 : gcd a b = 0
    · have hab := (gcd_eq_zero_iff a b).mp hg0
      have hl0 : lcm32 a b = .error .divByZero := by
        rw [hl, hg0]
        simp [cdiv32]
      refine ⟨?_, hgz, ?_, Or.inl hl0, hzero⟩
      · exact ⟨fun _ => hab, fun _ => hl0⟩
      · rw [hl0]
        constructor
        · intro h
          cases h
        · rintro (h | ⟨h, -⟩)
          · exact absurd h hc
          · rw [hB, hg0] at h
            injection h with h
            exact absurd h (by decide)
    · have hab : ¬ (a = 0 ∧ b = 0) := fun h => hg0 ((gcd_eq_zero_iff a b).mpr h)
      by_cases ht : wrap32 (cabs (wrap32 (a * b))) = INT_MIN ∧ gcd a b = -1
      · have hlo : lcm32 a b = .error .overflow := by
          rw [hl]
          simp [cdiv32, hg0, ht]
        refine ⟨?_, hgz, ?_, Or.inr (Or.inl hlo), hzero⟩
        · rw [hlo]
          constructor
          · intro h
            cases h
          · intro h
            exact absurd h hab
        · refine ⟨fun _ => Or.inr ⟨?_, ht.1⟩, fun _ => hlo⟩
          rw [hB, ht.2]
      · have hlv : lcm32 a b = .ok ((wrap32 (cabs (wrap32 (a * b)))).tdiv (gcd a b)) := by
          rw [hl, cdiv32_ok _ hg0 ht]
        refine ⟨?_, hgz, ?_, Or.inr (Or.inr ⟨gcd a b, hB, hlv⟩), hzero⟩
        · rw [hlv]
          constructor
          · intro h
            cases h
          · intro h
            exact absurd h hab
        · rw [hlv]
          constructor
          · intro h
            cases h
          · rintro (h | ⟨h1, h2⟩)
            · exact absurd h hc
            · rw [hB] at h1
              injection h1 with h1
              exact absurd ⟨h2, h1⟩ ht

theorem lcm32_outcome_witness :
    in_int 7 ∧ in_int 0 ∧ in_int (-4) ∧ in_int 6 ∧
    (lcm32 0 0 = .error .divByZero) ∧
    ((7 : Int) ≠ 0 ∧ lcm32 7 0 = .ok 0 ∧ lcm32 0 7 = .ok 0) ∧
    lcm32 (-1) INT_MIN = .error .overflow ∧
    (∀ g : Int, gcd32 (-4) 6 = .ok g → (g = 0 ↔ (-4 : Int) = 0 ∧ (6 : Int) = 0)) :=
  ⟨by decide, by decide, by decide, by decide,
    (lcm32_outcome 0 0 (by decide) (by decide)).1.mpr ⟨rfl, rfl⟩,
    ⟨by decide, (lcm32_outcome 7 0 (by decide) (by decide)).2.2.2.2 (by decide)⟩,
    (lcm32_outcome (-1) INT_MIN (by decide) (by decide)).2.2.1.mpr
      (Or.inl (Or.inr ⟨rfl, rfl⟩)),
    (lcm32_outcome (-4) 6 (by decide) (by decide)).2.1⟩

/-- C15, as the code behaves: `gcd(INT_MIN, -1)` reaches no call whose second argument is
zero and returns nothing. Its first call takes the remainder `INT_MIN % -1`, which stops
the program, whatever the budget of nested calls. -/
theorem gcd32_int_min_neg_one_stopped :
    in_int INT_MIN ∧ in_int (-1) ∧
    gcd32Fuel 1 INT_MIN (-1) = some (.error .overflow) ∧
    (∀ (calls : Nat) (g : Int), gcd32Fuel calls INT_MIN (-1) ≠ some (.ok g)) ∧
    (∀ n : Nat, ∀ g : Int, gcd32Call n INT_MIN (-1) ≠ some (g, 0)) := by
  refine ⟨by decide, by decide, rfl, ?_, ?_⟩
  · intro calls g h
    cases calls with
    | zero => cases h
    | succ k =>
      have e : gcd32Fuel (k + 1) INT_MIN (-1) = some (.error .overflow) := rfl
      rw [e] at h
      cases h
  · intro n g h
    cases n with
    | zero =>
      have e : gcd32Call 0 INT_MIN (-1) = some (INT_MIN, -1) := rfl
      rw [e] at h
      injection h with h
      injection h with h1 h2
      exact absurd h2 (by decide)
    | succ k =>
      have e : gcd32Call (k + 1) INT_MIN (-1) = none := rfl
      rw [e] at h
      cases h

/-- C15, amended. For all values `a` and `b` of `int`, negative arguments and `gcd(0, 0)`
included, `gcd(a, b)` halts within `|b| + 1` nested calls, because `|a % b| < |b|` for
`b != 0`. On every pair other than `(INT_MIN, -1)` and `(-1, INT_MIN)` the chain of calls
`gcd(a, b) -> gcd(b, a % b)` reaches, after at most `|b|` calls, a call whose second
argument is zero, and `gcd` returns the first argument of that call. On those two pairs
the remainder `INT_MIN % -1` stops the program before such a call is reached. -/
theorem gcd32_halts (a b : Int) (ha : in_int a) (hb : in_int b) :
    (∀ extra : Nat, gcd32Fuel (b.natAbs + 1 + extra) a b = some (gcd32 a b)) ∧
    (b ≠ 0 → (a.tmod b).natAbs < b.natAbs) ∧
    (¬ ((a = INT_MIN ∧ b = -1) ∨ (a = -1 ∧ b = INT_MIN)) →
      ∃ (n : Nat) (g : Int), n ≤ b.natAbs ∧ gcd32Call n a b = some (g, 0) ∧
        gcd32 a b = .ok g) ∧
    ((a = INT_MIN ∧ b = -1) ∨ (a = -1 ∧ b = INT_MIN) →
      gcd32 a b = .error .overflow) ∧
    gcd32 0 0 = .ok 0 := by
  refine ⟨fun extra => gcd32Fuel_of_lt _ a b (by omega), fun h => natAbs_tmod_lt a h,
    ?_, ?_, rfl⟩
  · intro hc
    have hg : gcd32 a b = .ok (gcd a b) := by rw [gcd32_in_int a b ha hb, if_neg hc]
    obtain ⟨n, hle, hcall⟩ := gcd32_chain _ a b (gcd a b) rfl hg
    exact ⟨n, gcd a b, hle, hcall, hg⟩
  · intro hc
    rw [gcd32_in_int a b ha hb, if_pos hc]

theorem gcd32_halts_witness :
    in_int (-12) ∧ in_int (-7) ∧
    gcd32Fuel ((-7 : Int).natAbs + 1 + 0) (-12) (-7) = some (gcd32 (-12) (-7)) ∧
    ((-7 : Int) ≠ 0 ∧ ((-12 : Int).tmod (-7)).natAbs < (-7 : Int).natAbs) ∧
    (∃ (n : Nat) (g : Int), n ≤ (-7 : Int).natAbs ∧
      gcd32Call n (-12) (-7) = some (g, 0) ∧ gcd32 (-12) (-7) = .ok g) ∧
    gcd32 (-1) INT_MIN = .error .overflow :=
  ⟨by decide, by decide,
    (gcd32_halts (-12) (-7) (by decide) (by decide)).1 0,
    ⟨by decide, (gcd32_halts (-12) (-7) (by decide) (by decide)).2.1 (by decide)⟩,
    (gcd32_halts (-12) (-7) (by decide) (by decide)).2.2.1 (by decide),
    (gcd32_halts (-1) INT_MIN (by decide) (by decide)).2.2.2.1 (Or.inr ⟨rfl, rfl⟩)⟩

/-- C16. With `int` a 32-bit two's complement integer, the product in `lcm` can
overflow: `a = b = 65536` are positive, their least common multiple `65536` fits in an
`int`, but `a * b` wraps to `0` and `lcm(a, b)` returns `0` and not `65536`. -/
theorem lcm32_overflow :
    wrap32 (65536 * 65536) = 0 ∧
    lcm32 65536 65536 = .ok 0 ∧
    lcm 65536 65536 = .ok 65536 ∧
    Nat.lcm 65536 65536 = 65536 ∧
    wrap32 65536 = 65536 ∧
    (∃ a b : Int, 0 < a ∧ 0 < b ∧ wrap32 a = a ∧ wrap32 b = b ∧
      wrap32 (Nat.lcm a.natAbs b.natAbs : Int) = (Nat.lcm a.natAbs b.natAbs : Int) ∧
      lcm32 a b ≠ .ok (Nat.lcm a.natAbs b.natAbs : Int)) := by
  have hg : gcd32 65536 65536 = .ok 65536 := by
    rw [gcd32_in_int 65536 65536 (by decide) (by decide), if_neg (by decide), gcd_self]
  have hw : wrap32 (65536 * 65536) = 0 := by decide
  have h32 : lcm32 65536 65536 = .ok 0 := by
    unfold lcm32
    rw [hg]
    rfl
  have hl : Nat.lcm 65536 65536 = 65536 := Nat.lcm_self 65536
  have hw2 : wrap32 65536 = 65536 := by decide
  refine ⟨hw, h32, lcm_self (by decide), hl, hw2, 65536, 65536, by decide, by decide,
    hw2, hw2, ?_, ?_⟩
  · have : (65536 : Int).natAbs = 65536 := rfl
    rw [this, hl]
    exact hw2
  · have : (65536 : Int).natAbs = 65536 := rfl
    rw [this, hl, h32]
    intro h
    cases h

theorem gcd_neg_right_self (a : Int) : gcd a (-a) = -a := by
  by_cases ha : a = 0
  · subst ha
    rfl
  · have hn : -a ≠ 0 := neg_ne_zero.mpr ha
    rw [gcd_of_ne_zero a hn, Int.tmod_neg, Int.tmod_self, gcd_zero_right]

theorem gcd_neg_left_self (a : Int) : gcd (-a) a = a := by
  by_cases ha : a = 0
  · subst ha
    rfl
  · have h0 : (-a).tmod a = 0 := Int.tmod_eq_zero_of_dvd (Int.dvd_neg.mpr (dvd_refl a))
    rw [gcd_of_ne_zero (-a) ha, h0, gcd_zero_right]

/-- C18. `add_fractions` is not commutative as a representation:
`add_fractions((1,2),(2,-2)) = (1,-2)` while `add_fractions((2,-2),(1,2)) = (-1,2)`, two
different records for the same rational number, because `gcd(a, -a) = -a` and
`gcd(-a, a) = a` for every `a`, so that `lcm(2, -2) = -2` and `lcm(-2, 2) = 2`. -/
theorem add_fractions_not_commutative (a : Int) :
    add_fractions { numerator := 1, denominator := 2 } { numerator := 2, denominator := -2 }
      = .ok { numerator := 1, denominator := -2 } ∧
    add_fractions { numerator := 2, denominator := -2 } { numerator := 1, denominator := 2 }
      = .ok { numerator := -1, denominator := 2 } ∧
    add_fractions { numerator := 1, denominator := 2 } { numerator := 2, denominator := -2 }
      ≠ add_fractions { numerator := 2, denominator := -2 }
          { numerator := 1, denominator := 2 } ∧
    ((1 : Int) : ℚ) / ((-2 : Int) : ℚ) = ((-1 : Int) : ℚ) / ((2 : Int) : ℚ) ∧
    gcd a (-a) = -a ∧ gcd (-a) a = a ∧
    lcm 2 (-2) = .ok (-2) ∧ lcm (-2) 2 = .ok 2 := by
  refine ⟨rfl, rfl, ?_, by norm_num, gcd_neg_right_self a, gcd_neg_left_self a, rfl, rfl⟩
  intro h
  have h1 : add_fractions { numerator := 1, denominator := 2 }
      { numerator := 2, denominator := -2 } = .ok { numerator := 1, denominator := -2 } := rfl
  have h2 : add_fractions { numerator := 2, denominator := -2 }
      { numerator := 1, denominator := 2 } = .ok { numerator := -1, denominator := 2 } := rfl
  rw [h1, h2] at h
  injection h with h
  injection h with h3 h4
  exact absurd h3 (by decide)

end Addfrac

/-! ## Theorems: `code/fracheap.c` -/

namespace Fracheap

/-- A count above the length of the block takes the pointer outside the block; a count
below zero makes no pass. -/
theorem invert_fractions_counts :
    invert_fractions [⟨1, 2⟩, ⟨3, 4⟩, ⟨5, 6⟩] 4 = none ∧
    invert_fractions [⟨1, 2⟩, ⟨3, 4⟩, ⟨5, 6⟩] (-1) = some [⟨1, 2⟩, ⟨3, 4⟩, ⟨5, 6⟩] := by
  decide

theorem swapped_swapped (f : fraction) : swapped (swapped f) = f := rfl

/-- The loop of `invert_fractions` started at the end of `pre` with `k` passes to go,
when at least `k` records follow: the next `k` records are exchanged, nothing else
changes. -/
theorem invert_loop_append : ∀ (k : Nat) (pre suf : List fraction), k ≤ suf.length →
    invert_loop k pre.length (pre ++ suf)
      = some (pre ++ (suf.take k).map swapped ++ suf.drop k) := by
  intro k
  induction k with
  | zero =>
    intro pre suf _
    simp [invert_loop]
  | succ k ih =>
    intro pre suf h
    cases suf with
    | nil => simp at h
    | cons f rest =>
      have hb : invert_body (pre ++ f :: rest) pre.length
          = some ((pre ++ [swapped f]) ++ rest) := by
        have hget : (pre ++ f :: rest)[pre.length]? = some f := by
          rw [List.getElem?_append_right (Nat.le_refl _)]
          simp
        have hset : ∀ v : fraction,
            (pre ++ f :: rest).set pre.length v = (pre ++ [v]) ++ rest := by
          intro v
          rw [List.set_append_right _ _ (Nat.le_refl _)]
          simp
        unfold invert_body
        rw [hget]
        simp only [hset]
        rfl
      have hlen : (pre ++ [swapped f]).length = pre.length + 1 := by simp
      simp only [invert_loop, hb]
      rw [← hlen, ih (pre ++ [swapped f]) rest (by simpa using h)]
      simp

/-- With a count of at most the length of the block, `invert_fractions` exchanges the
first `k` records and leaves the others as they are. -/
theorem invert_fractions_take_drop (C : List fraction) (k : Nat) (hk : k ≤ C.length) :
    invert_fractions C (k : Int) = some ((C.take k).map swapped ++ C.drop k) := by
  have h := invert_loop_append k [] C hk
  simpa [invert_fractions] using h

theorem invert_fractions_length (C : List fraction) :
    invert_fractions C (C.length : Int) = some (C.map swapped) := by
  rw [invert_fractions_take_drop C C.length (Nat.le_refl _)]
  simp

/-- The loop of `invert_fractions` runs its body once at each of the offsets
`p, p + 1, ..., p + k - 1`, in this order. -/
theorem invert_loop_eq_foldlM : ∀ (k p : Nat) (mem : List fraction),
    invert_loop k p mem = (List.range' p k).foldlM invert_body mem := by
  intro k
  induction k with
  | zero =>
    intro p mem
    rfl
  | succ k ih =>
    intro p mem
    rw [List.range'_succ, List.foldlM_cons]
    simp only [invert_loop]
    cases hb : invert_body mem p with
    | none => rfl
    | some mem1 => exact ih (p + 1) mem1

/-- C8. For every block `C` of `n` records, `invert_fractions(C, n)` yields a block `R` of
the same length whose `i`-th record is `(C[i].denominator, C[i].numerator)` for every
index `i` below `n`, in the same order; the loop runs its body once at each of the
offsets `0, 1, ..., n - 1`; and `[(1,2),(3,4),(5,6)]` becomes `[(2,1),(4,3),(6,5)]`. -/
theorem invert_fractions_records (C : List fraction) :
    (∃ R : List fraction, invert_fractions C (C.length : Int) = some R ∧
      R.length = C.length ∧
      ∀ i : Fin C.length,
        R[i.val]? = some { numerator := C[i].denominator, denominator := C[i].numerator }) ∧
    invert_fractions C (C.length : Int) = (List.range C.length).foldlM invert_body C ∧
    invert_fractions [⟨1, 2⟩, ⟨3, 4⟩, ⟨5, 6⟩] 3 = some [⟨2, 1⟩, ⟨4, 3⟩, ⟨6, 5⟩] := by
  refine ⟨⟨C.map swapped, invert_fractions_length C, by simp, ?_⟩, ?_, by decide⟩
  · intro i
    simp [swapped]
  · rw [List.range_eq_range']
    exact invert_loop_eq_foldlM C.length 0 C

/-- C7. `invert_fractions` applied twice is the identity: for every block `C` of `n`
records, whatever the numerators and denominators, the first call yields a block `R` of
length `n` and the second call on `R` yields `C` again. -/
theorem invert_fractions_twice (C : List fraction) :
    ∃ R : List fraction, invert_fractions C (C.length : Int) = some R ∧
      R.length = C.length ∧ invert_fractions R (C.length : Int) = some C := by
  refine ⟨C.map swapped, invert_fractions_length C, by simp, ?_⟩
  have h := invert_fractions_length (C.map swapped)
  rw [List.length_map] at h
  rw [h, List.map_map]
  have : swapped ∘ swapped = id := funext swapped_swapped
  rw [this, List.map_id]

/-- C17. `invert_fractions(block, k)` touches only the first `k` records: for every
block `C` of length `m` and every count `k ≤ m`, the call returns a block `R` of length
`m` in which the records at the indices below `k` are exchanged and the records at the
indices `k .. m - 1` are those of `C`; for `k ≤ 0` the whole block is unchanged. -/
theorem invert_fractions_frame (C : List fraction) (k : Int) (hk : k ≤ (C.length : Int)) :
    ∃ R : List fraction, invert_fractions C k = some R ∧ R.length = C.length ∧
      (∀ i : Nat, R[i]? =
        if (i : Int) < k then
          (C[i]?).map (fun f => { numerator := f.denominator, denominator := f.numerator })
        else C[i]?) ∧
      (k ≤ 0 → R = C) := by
  have hn : k.toNat ≤ C.length := by omega
  have h := invert_loop_append k.toNat [] C hn
  simp only [List.nil_append, List.length_nil] at h
  refine ⟨_, h, ?_, ?_, ?_⟩
  · simp only [List.length_append, List.length_map, List.length_take, List.length_drop]
    omega
  · intro i
    by_cases hi : (i : Int) < k
    · have hi2 : i < k.toNat := by omega
      rw [if_pos hi, List.getElem?_append_left (by simp; omega), List.getElem?_map,
        List.getElem?_take_of_lt hi2]
      rfl
    · have hi2 : k.toNat ≤ i := by omega
      rw [if_neg hi, List.getElem?_append_right (by simp; omega), List.getElem?_drop]
      congr 1
      simp only [List.length_map, List.length_take]
      omega
  · intro h0
    have hz : k.toNat = 0 := by omega
    rw [hz]
    simp

theorem invert_fractions_frame_witness :
    ((2 : Int) ≤ (([⟨1, 2⟩, ⟨3, 4⟩, ⟨5, 6⟩] : List fraction).length : Int)) ∧
    ∃ R : List fraction, invert_fractions [⟨1, 2⟩, ⟨3, 4⟩, ⟨5, 6⟩] 2 = some R ∧
      R.length = ([⟨1, 2⟩, ⟨3, 4⟩, ⟨5, 6⟩] : List fraction).length ∧
      (∀ i : Nat, R[i]? =
        if (i : Int) < 2 then
          (([⟨1, 2⟩, ⟨3, 4⟩, ⟨5, 6⟩] : List fraction)[i]?).map
            (fun f => { numerator := f.denominator, denominator := f.numerator })
        else ([⟨1, 2⟩, ⟨3, 4⟩, ⟨5, 6⟩] : List fraction)[i]?) ∧
      ((2 : Int) ≤ 0 → R = [⟨1, 2⟩, ⟨3, 4⟩, ⟨5, 6⟩]) :=
  ⟨by decide, invert_fractions_frame [⟨1, 2⟩, ⟨3, 4⟩, ⟨5, 6⟩] 2 (by decide)⟩

/-- The loop of `get_fractions` started at index `pre.length` with one pass per pair to
go, when at least as many records follow: the records that follow are overwritten by the
pairs, in order, and the input that comes after the pairs is left unread. -/
theorem get_loop_append : ∀ (pairs : List (Int × Int)) (pre suf : List fraction)
    (buffer : Option Int) (rest : List Int) (out : String), pairs.length ≤ suf.length →
    ∃ out1 : String,
      get_loop pairs.length pre.length buffer (pre ++ suf)
          { stdin := source_of pairs ++ rest, stdout := out }
        = some (pre ++ pairs.map (fun p => { numerator := p.1, denominator := p.2 })
                  ++ suf.drop pairs.length,
                { stdin := rest, stdout := out1 }) := by
  intro pairs
  induction pairs with
  | nil =>
    intro pre suf buffer rest out _
    exact ⟨out, by simp [get_loop, source_of]⟩
  | cons p ps ih =>
    intro pre suf buffer rest out h
    cases suf with
    | nil => simp at h
    | cons f sufrest =>
      have hlt : pre.length < (pre ++ f :: sufrest).length := by simp
      have hset : ∀ v : fraction,
          (pre ++ f :: sufrest).set pre.length v = (pre ++ [v]) ++ sufrest := by
        intro v
        rw [List.set_append_right _ _ (Nat.le_refl _)]
        simp
      have hlen : ∀ v : fraction, (pre ++ [v]).length = pre.length + 1 := by
        intro v
        simp
      obtain ⟨out1, h1⟩ := ih (pre ++ [{ numerator := p.1, denominator := p.2 }]) sufrest
        (some p.2) rest
        (out ++ ("Enter numerator for fraction " ++ toString (pre.length + 1) ++ ": ")
          ++ ("Enter denominator for fraction " ++ toString (pre.length + 1) ++ ": "))
        (by simpa using h)
      refine ⟨out1, ?_⟩
      simp only [List.length_cons, get_loop, source_of, List.cons_append, fgets, hlt,
        if_true, hset]
      rw [hlen] at h1
      rw [h1]
      simp

/-- C12. For every count `n ≥ 0`, every prior contents `C` of the block of `n` records
and every input that supplies the integer pairs `p_0, ..., p_{n-1}` in index order,
`get_fractions` leaves a block of length `n` whose record `i` is `p_i`, numerator first
and denominator second, whatever `C` was; the denominator is stored as given, zero
included, and the input after the pairs is left unread. -/
theorem get_fractions_stores (C : List fraction) (pairs : List (Int × Int))
    (rest : List Int) (out : String) (h : pairs.length = C.length) :
    (∃ (R : List fraction) (out1 : String),
      get_fractions C (C.length : Int) { stdin := source_of pairs ++ rest, stdout := out }
        = some (R, { stdin := rest, stdout := out1 }) ∧
      R.length = C.length ∧
      R = pairs.map (fun p => { numerator := p.1, denominator := p.2 }) ∧
      ∀ i : Fin pairs.length,
        R[i.val]? = some { numerator := pairs[i].1, denominator := pairs[i].2 }) ∧
    (get_fractions [⟨9, 9⟩] 1 { stdin := [5, 0], stdout := "" }).map Prod.fst
      = some [⟨5, 0⟩] := by
  refine ⟨?_, by decide⟩
  obtain ⟨out1, h1⟩ := get_loop_append pairs [] C none rest out (Nat.le_of_eq h)
  refine ⟨pairs.map (fun p => { numerator := p.1, denominator := p.2 }), out1, ?_, ?_, rfl, ?_⟩
  · simp only [List.nil_append, List.length_nil] at h1
    unfold get_fractions
    rw [Int.toNat_ofNat, ← h, h1, h]
    simp
  · simp [h]
  · intro i
    simp

theorem get_fractions_stores_witness :
    ([(1, 2), (3, 0)] : List (Int × Int)).length
      = ([⟨7, 7⟩, ⟨8, 8⟩] : List fraction).length ∧
    ∃ (R : List fraction) (out1 : String),
      get_fractions [⟨7, 7⟩, ⟨8, 8⟩] (([⟨7, 7⟩, ⟨8, 8⟩] : List fraction).length : Int)
          { stdin := source_of [(1, 2), (3, 0)] ++ [4], stdout := "" }
        = some (R, { stdin := [4], stdout := out1 }) ∧
      R.length = ([⟨7, 7⟩, ⟨8, 8⟩] : List fraction).length ∧
      R = ([(1, 2), (3, 0)] : List (Int × Int)).map
        (fun p => { numerator := p.1, denominator := p.2 }) ∧
      ∀ i : Fin ([(1, 2), (3, 0)] : List (Int × Int)).length,
        R[i.val]? = some { numerator := ([(1, 2), (3, 0)] : List (Int × Int))[i].1,
                           denominator := ([(1, 2), (3, 0)] : List (Int × Int))[i].2 } :=
  ⟨rfl, (get_fractions_stores [⟨7, 7⟩, ⟨8, 8⟩] [(1, 2), (3, 0)] [4] "" rfl).1⟩

/-- With a count that is not positive, no loop of `main` makes a pass. -/
theorem main_of_nonpos (numfrac : Int) (rest : List Int) (alloc : Int → List fraction)
    (h : numfrac ≤ 0) :
    main (numfrac :: rest) alloc
      = some { calls := [.malloc numfrac, .get_fractions numfrac,
                 .invert_fractions numfrac, .print_fractions numfrac, .free],
               heap := { block := alloc numfrac, live := false },
               console := { stdin := rest, stdout := "How many fractions to make? " },
               status := 0 } := by
  have hz : numfrac.toNat = 0 := by omega
  have e : ("How many fractions to make? " : String) ++ "" = "How many fractions to make? " :=
    by decide
  simp [main, fgets, malloc, free, get_fractions_at, get_fractions, get_loop,
    invert_fractions_at, invert_fractions, invert_loop, print_fractions_at, print_fractions,
    print_loop, hz, e]

/-- C13, as the code behaves: a negative count is not rejected. On the input `-1`, `main`
requests the block from `malloc`, calls `get_fractions`, `invert_fractions`,
`print_fractions` and `free`, writes nothing but its first prompt and returns `0`. -/
theorem main_negative_count_not_rejected :
    main [-1] (fun _ => [])
      = some { calls := [.malloc (-1), .get_fractions (-1), .invert_fractions (-1),
                 .print_fractions (-1), .free],
               heap := { block := [], live := false },
               console := { stdin := [], stdout := "How many fractions to make? " },
               status := 0 } ∧
    ∃ r : Run, main [-1] (fun _ => []) = some r ∧ Call.malloc (-1) ∈ r.calls ∧
      r.status = 0 := by
  refine ⟨by decide, _, main_of_nonpos (-1) [] (fun _ => []) (by decide), ?_, rfl⟩
  simp

/-- C13, amended. `main` has no check of the count: for every negative count it
requests the block with `malloc(sizeof(struct fraction) * numfrac)`, calls
`get_fractions`, `invert_fractions` and `print_fractions`, none of which makes a pass
(no record is read or written, no input is read and nothing is written after the first
prompt), calls `free` and returns `0`. No error is reported. -/
theorem main_negative_count (numfrac : Int) (rest : List Int)
    (alloc : Int → List fraction) (h : numfrac < 0) :
    main (numfrac :: rest) alloc
      = some { calls := [.malloc numfrac, .get_fractions numfrac,
                 .invert_fractions numfrac, .print_fractions numfrac, .free],
               heap := { block := alloc numfrac, live := false },
               console := { stdin := rest, stdout := "How many fractions to make? " },
               status := 0 } :=
  main_of_nonpos numfrac rest alloc (Int.le_of_lt h)

theorem main_negative_count_witness :
    (-3 : Int) < 0 ∧
    main [-3, 8] (fun _ => [⟨1, 2⟩])
      = some { calls := [.malloc (-3), .get_fractions (-3), .invert_fractions (-3),
                 .print_fractions (-3), .free],
               heap := { block := [⟨1, 2⟩], live := false },
               console := { stdin := [8], stdout := "How many fractions to make? " },
               status := 0 } :=
  ⟨by decide, main_negative_count (-3) [8] (fun _ => [⟨1, 2⟩]) (by decide)⟩

theorem join_cons (x : String) (xs : List String) :
    String.join (x :: xs) = x ++ String.join xs := by
  apply String.ext
  simp [String.data_join]

/-- The loop of `print_fractions` started at index `pre.length` with `k` passes to go,
when at least `k` records follow: it appends one line per record, in index order. -/
theorem print_loop_append : ∀ (k : Nat) (pre suf : List fraction) (out : String),
    k ≤ suf.length →
    print_loop (pre ++ suf) k pre.length out
      = some (out ++ String.join
          ((List.enumFrom pre.length (suf.take k)).map
            (fun jf => line_text jf.1 jf.2 ++ "\n"))) := by
  intro k
  induction k with
  | zero =>
    intro pre suf out _
    simp [print_loop, String.join]
  | succ k ih =>
    intro pre suf out h
    cases suf with
    | nil => simp at h
    | cons f rest =>
      have hget : (pre ++ f :: rest)[pre.length]? = some f := by
        rw [List.getElem?_append_right (Nat.le_refl _)]
        simp
      have hlen : (pre ++ [f]).length = pre.length + 1 := by simp
      have happ : pre ++ f :: rest = (pre ++ [f]) ++ rest := by simp
      simp only [print_loop, hget]
      rw [happ, ← hlen, ih (pre ++ [f]) rest _ (by simpa using h), hlen]
      simp only [List.take_succ_cons, List.enumFrom_cons, List.map_cons, join_cons,
        String.append_assoc]

theorem ite_ne_of_ne {α : Type} (c : Prop) [Decidable c] (a b x : α)
    (ha : a ≠ x) (hb : b ≠ x) : (if c then a else b) ≠ x := by
  by_cases h : c
  · rwa [if_pos h]
  · rwa [if_neg h]

theorem digitChar_ne_newline (n : Nat) : Nat.digitChar n ≠ '\n' := by
  unfold Nat.digitChar
  repeat' apply ite_ne_of_ne
  all_goals decide

theorem toDigitsCore_no_newline (b : Nat) : ∀ (fuel n : Nat) (ds : List Char),
    '\n' ∉ ds → '\n' ∉ Nat.toDigitsCore b fuel n ds := by
  intro fuel
  induction fuel with
  | zero =>
    intro n ds h
    simpa [Nat.toDigitsCore] using h
  | succ fuel ih =>
    intro n ds h
    have hd : '\n' ∉ Nat.digitChar (n % b) :: ds := by
      simp only [List.mem_cons, not_or]
      exact ⟨fun e => digitChar_ne_newline _ e.symm, h⟩
    simp only [Nat.toDigitsCore]
    split_ifs
    · exact hd
    · exact ih _ _ hd

theorem nat_toString_no_newline (n : Nat) : '\n' ∉ (toString n).data := by
  show '\n' ∉ (Nat.repr n).data
  unfold Nat.repr Nat.toDigits
  exact toDigitsCore_no_newline 10 _ _ _ (by simp)

theorem int_toString_no_newline (x : Int) : '\n' ∉ (toString x).data := by
  cases x with
  | ofNat m => exact nat_toString_no_newline m
  | negSucc m =>
    show '\n' ∉ ("-" ++ toString (Nat.succ m)).data
    rw [String.data_append, List.mem_append, not_or]
    exact ⟨by decide, nat_toString_no_newline _⟩

/-- The text of a line has no newline in it. -/
theorem line_text_no_newline (i : Nat) (f : fraction) : '\n' ∉ (line_text i f).data := by
  unfold line_text
  simp only [String.data_append, List.mem_append, not_or]
  exact ⟨⟨⟨⟨nat_toString_no_newline _, by decide⟩, int_toString_no_newline _⟩, by decide⟩,
    int_toString_no_newline _⟩

/-- C9. For every block `C` of `n ≥ 0` records, `print_fractions(C, n)` writes exactly
`n` lines, each ended by a newline and with no other newline in it, in ascending index
order, the `i`-th (from 0) being `<i+1>: <C[i].numerator>/<C[i].denominator>`; with a
count of `0` it writes nothing. -/
theorem print_fractions_lines (C : List fraction) :
    (∃ lines : List String,
      print_fractions C (C.length : Int)
        = some (String.join (lines.map (fun l => l ++ "\n"))) ∧
      lines.length = C.length ∧
      ∀ i : Fin C.length,
        lines[i.val]? = some (toString (i.val + 1) ++ ": " ++ toString C[i].numerator
          ++ "/" ++ toString C[i].denominator) ∧
        '\n' ∉ (toString (i.val + 1) ++ ": " ++ toString C[i].numerator
          ++ "/" ++ toString C[i].denominator).data) ∧
    print_fractions C 0 = some "" ∧
    print_fractions [] 0 = some "" ∧
    print_fractions [⟨1, 2⟩, ⟨3, -4⟩, ⟨5, 6⟩] 3 = some "1: 1/2\n2: 3/-4\n3: 5/6\n" := by
  refine ⟨⟨C.enum.map (fun jf => line_text jf.1 jf.2), ?_, by simp, ?_⟩, rfl, rfl,
    by decide⟩
  · have h := print_loop_append C.length [] C "" (Nat.le_refl _)
    simp only [List.nil_append, List.length_nil, List.take_length] at h
    unfold print_fractions
    rw [Int.toNat_ofNat, h, List.map_map]
    have e : ("" : String) ++ String.join (List.map (fun jf => line_text jf.1 jf.2 ++ "\n")
        (List.enumFrom 0 C)) = String.join (List.map (fun jf => line_text jf.1 jf.2 ++ "\n")
        (List.enumFrom 0 C)) := by
      apply String.ext
      simp
    rw [e]
    rfl
  · intro i
    refine ⟨by simp [line_text, List.enum], ?_⟩
    exact line_text_no_newline i.val C[i]

end Fracheap

/-! ## Theorems: `code/escapehtml.c` -/

namespace Escapehtml

/-- Stores at the end of `P`, when the block has room for them: the cells that follow `P`
are overwritten in order. -/
theorem store_all_append : ∀ (cs : List Char) (P T : Buffer), cs.length ≤ T.length →
    store_all (P ++ T) P.length cs = some (P ++ cs.map some ++ T.drop cs.length) := by
  intro cs
  induction cs with
  | nil =>
    intro P T _
    simp [store_all]
  | cons c cs ih =>
    intro P T h
    cases T with
    | nil => simp at h
    | cons t T1 =>
      have hlt : P.length < (P ++ t :: T1).length := by simp
      have hset : (P ++ t :: T1).set P.length (some c) = (P ++ [some c]) ++ T1 := by
        rw [List.set_append_right _ _ (Nat.le_refl _)]
        simp
      have hlen : (P ++ [some c]).length = P.length + 1 := by simp
      simp only [store_all, store, hlt, if_true, hset]
      rw [← hlen, ih (P ++ [some c]) T1 (by simpa using h)]
      simp

theorem escaped_cons (c : Char) (rest : List Char) :
    escaped (c :: rest) = escape_char c ++ escaped rest := rfl

theorem escape_char_lt : escape_char '<' = "&lt;".toList := rfl

theorem escape_char_gt : escape_char '>' = "&gt;".toList := rfl

theorem escape_char_other {c : Char} (h1 : c ≠ '<') (h2 : c ≠ '>') : escape_char c = [c] := by
  simp [escape_char, h1, h2]

/-- The `strcpy` of a four-character entity at the end of the output `W`, when at least
five cells follow: the entity is appended and the cell after it holds `NUL`. -/
theorem strcpy_entity (W ent : List Char) (t : Option Char) (m : Nat)
    (hent : ent.length = 4) :
    strcpy (W.map some ++ t :: List.replicate (m + 4) none) W.length ent
      = some ((W ++ ent).map some ++ some NUL :: List.replicate m none) := by
  have h := store_all_append (ent ++ [NUL]) (W.map some) (t :: List.replicate (m + 4) none)
    (by simp [hent])
  rw [List.length_map] at h
  unfold strcpy
  rw [h]
  have hd : List.drop (ent ++ [NUL]).length (t :: List.replicate (m + 4) none)
      = List.replicate m none := by
    simp [hent, List.drop_replicate]
  rw [hd]
  simp

/-- The store of one character at the end of the output `W`, when a cell follows. -/
theorem store_end (W : List Char) (c : Char) (t : Option Char) (T : Buffer) :
    store (W.map some ++ t :: T) W.length c = some ((W ++ [c]).map some ++ T) := by
  have hlt : W.length < (W.map some ++ t :: T).length := by simp
  have hset : (W.map some ++ t :: T).set W.length (some c)
      = (W ++ [c]).map some ++ T := by
    rw [List.set_append_right _ _ (by simp)]
    simp
  simp only [store, hlt, if_true, hset]

theorem end_cell_cons (start : Option Char) (c : Char) (rest : List Char) :
    end_cell start (c :: rest)
      = end_cell (if c = '<' ∨ c = '>' then some NUL else none) rest := rfl

/-- The loop of `doescape` started at the end of the output `W`, with the cell `t` and
`m` unwritten cells after it, when the escaped form of the characters to visit fits in
`m` cells: the escaped form is appended to `W`, the cell after it is `end_cell t rest`,
and the cells after that one are not written. -/
theorem doescape_loop_spec : ∀ (rest W : List Char) (t : Option Char) (m : Nat),
    (escaped rest).length ≤ m →
    doescape_loop rest W.length (W.map some ++ t :: List.replicate m none)
      = some ((W ++ escaped rest).map some
          ++ end_cell t rest :: List.replicate (m - (escaped rest).length) none) := by
  intro rest
  induction rest with
  | nil =>
    intro W t m _
    simp [doescape_loop, escaped, end_cell]
  | cons c rest ih =>
    intro W t m h
    rw [escaped_cons, List.length_append] at h
    by_cases h1 : c = '<'
    · subst h1
      have h4 : (escape_char '<').length = 4 := rfl
      obtain ⟨k, rfl⟩ : ∃ k, m = k + 4 := ⟨m - 4, by omega⟩
      have hl : (W ++ "&lt;".toList).length = W.length + 4 := by
        rw [List.length_append]
        rfl
      simp only [doescape_loop, if_true]
      rw [strcpy_entity W "&lt;".toList t k rfl]
      simp only
      rw [← hl, ih (W ++ "&lt;".toList) (some NUL) k (by omega), escaped_cons,
        end_cell_cons, escape_char_lt, List.length_append]
      have e : k + 4 - ("&lt;".toList.length + (escaped rest).length)
          = k - (escaped rest).length := by
        have : "&lt;".toList.length = 4 := rfl
        omega
      rw [e]
      simp
    · by_cases h2 : c = '>'
      · subst h2
        have h4 : (escape_char '>').length = 4 := rfl
        obtain ⟨k, rfl⟩ : ∃ k, m = k + 4 := ⟨m - 4, by omega⟩
        have hl : (W ++ "&gt;".toList).length = W.length + 4 := by
          rw [List.length_append]
          rfl
        have hne : ('>' : Char) ≠ '<' := by decide
        simp only [doescape_loop, hne, if_false, if_true]
        rw [strcpy_entity W "&gt;".toList t k rfl]
        simp only
        rw [← hl, ih (W ++ "&gt;".toList) (some NUL) k (by omega), escaped_cons,
          end_cell_cons, escape_char_gt, List.length_append]
        have e : k + 4 - ("&gt;".toList.length + (escaped rest).length)
            = k - (escaped rest).length := by
          have : "&gt;".toList.length = 4 := rfl
          omega
        rw [e]
        simp
      · have hc : escape_char c = [c] := escape_char_other h1 h2
        rw [hc] at h
        obtain ⟨k, rfl⟩ : ∃ k, m = k + 1 := ⟨m - 1, by simp at h; omega⟩
        have hl : (W ++ [c]).length = W.length + 1 := by simp
        simp only [doescape_loop, h1, h2, if_false]
        rw [List.replicate_succ, store_end W c t (none :: List.replicate k none)]
        simp only
        rw [← hl, ih (W ++ [c]) none k (by simp at h; omega), escaped_cons, end_cell_cons,
          hc, List.length_append]
        have e : k + 1 - ([c].length + (escaped rest).length)
            = k - (escaped rest).length := by
          simp only [List.length_singleton]
          omega
        rw [e]
        simp [h1, h2]

theorem count_foldl : ∀ (s : List Char) (a : Nat),
    s.foldl (fun count c => if c = '<' ∨ c = '>' then count + 1 else count) a
      = a + count_escapees s := by
  intro s
  induction s with
  | nil =>
    intro a
    simp [count_escapees]
  | cons c rest ih =>
    intro a
    unfold count_escapees
    simp only [List.foldl_cons]
    rw [ih, ih]
    split_ifs <;> omega

theorem count_escapees_cons (c : Char) (rest : List Char) :
    count_escapees (c :: rest)
      = (if c = '<' ∨ c = '>' then 1 else 0) + count_escapees rest := by
  unfold count_escapees
  simp only [List.foldl_cons]
  rw [count_foldl]
  split_ifs <;> simp [count_escapees]

/-- The escaped form has three more characters for each `<` or `>`. -/
theorem escaped_length (s : List Char) :
    (escaped s).length = s.length + 3 * count_escapees s := by
  induction s with
  | nil => rfl
  | cons c rest ih =>
    rw [escaped_cons, List.length_append, ih, count_escapees_cons, List.length_cons]
    by_cases h1 : c = '<'
    · subst h1
      have : (escape_char '<').length = 4 := rfl
      simp only [this, true_or, if_true]
      omega
    · by_cases h2 : c = '>'
      · subst h2
        have : (escape_char '>').length = 4 := rfl
        simp only [this, or_true, if_true]
        omega
      · rw [escape_char_other h1 h2]
        simp only [h1, h2, or_self, if_false, List.length_singleton]
        omega

/-- The escaped form holds no `<` and no `>`. -/
theorem escaped_clean (s : List Char) : '<' ∉ escaped s ∧ '>' ∉ escaped s := by
  induction s with
  | nil => simp [escaped]
  | cons c rest ih =>
    rw [escaped_cons]
    simp only [List.mem_append, not_or]
    by_cases h1 : c = '<'
    · subst h1
      exact ⟨⟨by decide, ih.1⟩, ⟨by decide, ih.2⟩⟩
    · by_cases h2 : c = '>'
      · subst h2
        exact ⟨⟨by decide, ih.1⟩, ⟨by decide, ih.2⟩⟩
      · rw [escape_char_other h1 h2]
        simp only [List.mem_singleton]
        exact ⟨⟨fun h => h1 h.symm, ih.1⟩, ⟨fun h => h2 h.symm, ih.2⟩⟩

/-- The block that `escapehtml` returns: the escaped form, then the cell `end_cell none s`,
then one unwritten cell for each `<` or `>`. -/
theorem escapehtml_shape (s : List Char) :
    escapehtml s = some ((escaped s).map some
      ++ end_cell none s :: List.replicate (count_escapees s) none) := by
  have hfit : (escaped s).length ≤ s.length + count_escapees s * 4 := by
    rw [escaped_length]
    omega
  have h := doescape_loop_spec s [] none (s.length + count_escapees s * 4) hfit
  have e : s.length + count_escapees s * 4 - (escaped s).length = count_escapees s := by
    rw [escaped_length]
    omega
  rw [e] at h
  simp only [List.map_nil, List.nil_append, List.length_nil] at h
  unfold escapehtml doescape
  simp only [List.replicate_succ]
  exact h

/-- The cell `end_cell start s` in terms of the last character of `s`. -/
theorem end_cell_eq : ∀ (s : List Char) (start : Option Char),
    end_cell start s = match s.getLast? with
      | none => start
      | some ch => if ch = '<' ∨ ch = '>' then some NUL else none := by
  intro s
  induction s with
  | nil =>
    intro start
    rfl
  | cons c rest ih =>
    intro start
    rw [end_cell_cons, ih]
    cases rest with
    | nil => rfl
    | cons d rest1 =>
      rw [List.getLast?_cons_cons]
      cases hl : (d :: rest1).getLast? with
      | none => simp at hl
      | some ch => rfl

/-- C19. For every input `s` of length `L` with `c = count_escapees(s)` characters `<` or
`>`, `doescape` writes at the output positions `0 .. L + 3c - 1` exactly the
concatenation of `&lt;` for `<`, `&gt;` for `>` and the character itself otherwise, a
text with no `<` and no `>` in it; and every store it makes, the `NUL` bytes copied by
`strcpy` included, is inside the block of `L + 4c + 1` bytes that `escapehtml` allocates
(it is even inside the first `L + 3c + 1` bytes), whereas a store outside the block is a
failure of the model, as for `"a<"` on a block of 5 bytes. -/
theorem escapehtml_content (s : List Char) :
    (∃ buf : Buffer, escapehtml s = some buf ∧
      buf.length = s.length + 4 * count_escapees s + 1 ∧
      buf.take (s.length + 3 * count_escapees s) = (escaped s).map some) ∧
    (escaped s).length = s.length + 3 * count_escapees s ∧
    '<' ∉ escaped s ∧ '>' ∉ escaped s ∧
    (∃ buf1 : Buffer,
      doescape s (List.replicate (s.length + 3 * count_escapees s + 1) none) = some buf1) ∧
    doescape "a<".toList (List.replicate 5 none) = none ∧
    escapehtml "a<b".toList
      = some [some 'a', some '&', some 'l', some 't', some ';', some 'b', none, none] := by
  refine ⟨⟨_, escapehtml_shape s, ?_, ?_⟩, escaped_length s, (escaped_clean s).1,
    (escaped_clean s).2, ?_, by decide, by decide⟩
  · simp only [List.length_append, List.length_map, List.length_cons,
      List.length_replicate, escaped_length]
    omega
  · rw [← escaped_length, List.take_left' (by simp)]
  · have h := doescape_loop_spec s [] none (s.length + 3 * count_escapees s)
      (Nat.le_of_eq (escaped_length s))
    simp only [List.map_nil, List.nil_append, List.length_nil] at h
    exact ⟨_, by unfold doescape; rw [List.replicate_succ]; exact h⟩

theorem shape_getElem (E : List Char) (e : Option Char) (T : Buffer) :
    (E.map some ++ e :: T)[E.length]? = some e := by
  rw [List.getElem?_append_right (by simp)]
  simp

theorem shape_drop (E : List Char) (e : Option Char) (T : Buffer) :
    (E.map some ++ e :: T).drop E.length = e :: T := by
  rw [List.drop_left' (by simp)]

theorem shape_drop_succ (E : List Char) (e : Option Char) (T : Buffer) :
    (E.map some ++ e :: T).drop (E.length + 1) = T := by
  rw [← List.drop_drop, shape_drop]
  rfl

/-- C20. `doescape` leaves a `NUL` at the output position `L + 3c`, right after the
escaped content, exactly when the input is not empty and its last character is `<` or
`>`. For every other input, the empty string and `"abc"` among them, no byte at or after
the position `L + 3c` is written; the bytes after that position are written in no case.
So the code itself does not terminate the string that `escapehtml` returns. -/
theorem escapehtml_terminator (s : List Char) :
    (∃ buf : Buffer, escapehtml s = some buf ∧
      (buf[s.length + 3 * count_escapees s]? = some (some NUL) ↔
        ∃ ch : Char, s.getLast? = some ch ∧ (ch = '<' ∨ ch = '>')) ∧
      (buf[s.length + 3 * count_escapees s]? = some (some NUL) ∨
        buf.drop (s.length + 3 * count_escapees s)
          = List.replicate (count_escapees s + 1) none) ∧
      buf.drop (s.length + 3 * count_escapees s + 1)
        = List.replicate (count_escapees s) none) ∧
    escapehtml [] = some [none] ∧
    escapehtml "abc".toList = some [some 'a', some 'b', some 'c', none] ∧
    escapehtml "a<".toList
      = some [some 'a', some '&', some 'l', some 't', some ';', some NUL, none] := by
  refine ⟨⟨_, escapehtml_shape s, ?_, ?_, ?_⟩, by decide, by decide, by decide⟩
  · rw [← escaped_length, shape_getElem, end_cell_eq]
    cases hl : s.getLast? with
    | none => simp
    | some ch =>
      by_cases hc : ch = '<' ∨ ch = '>'
      · simp [hc]
      · simp [hc]
  · rw [← escaped_length, shape_getElem, shape_drop, end_cell_eq]
    cases hl : s.getLast? with
    | none =>
      right
      rfl
    | some ch =>
      by_cases hc : ch = '<' ∨ ch = '>'
      · left
        simp [hc]
      · right
        simp [hc, List.replicate_succ]
  · rw [← escaped_length, shape_drop_succ]

end Escapehtml
